import Mathlib

/-!
# A verification development for the demo virtual filesystem

Shallow embedding of `js/vfs.js` (class `VirtualFileSystem`, the `DemoVFS`
instance) and `js/assetManager.js` (class `AssetManager`).

Conventions of the embedding.

* JavaScript strings are Lean `String`s; the string primitives the program uses
  (`endsWith`, `startsWith`, `slice`, `split`) are defined on the character list.
* A JavaScript `Map` is an association list kept in insertion order: `set` on a
  present key replaces the value in place, `set` on a new key appends.
* Objects are values.  A method that mutates `this` returns the new state next
  to its outcome, so that what a call leaves behind when it throws is computed
  and not assumed.
* A thrown `Error` is an `Except.error` carrying the kind of the error.
-/

namespace VFS

/-! ## JavaScript strings -/

/-- `s.endsWith('/')`. -/
def endsWithSlash (s : String) : Bool :=
  s.data.getLast? == some '/'

/-- `s.startsWith(p)`. -/
def startsWith (s p : String) : Bool :=
  p.data.isPrefixOf s.data

/-- `s.slice(n)` for `n ≥ 0`. -/
def sliceFrom (s : String) (n : Nat) : String :=
  ⟨s.data.drop n⟩

/-- `s.slice(0, -1)`. -/
def sliceInit (s : String) : String :=
  ⟨s.data.dropLast⟩

/-- `s.split('/')` on the character list: the pieces between the slashes, the
empty ones included (`"".split('/')` is `[""]`). -/
def splitSlash : List Char → List (List Char)
  | [] => [[]]
  | c :: cs =>
    if c = '/' then [] :: splitSlash cs
    else
      match splitSlash cs with
      | [] => [[c]]
      | h :: t => (c :: h) :: t

/-- `relative.split('/').filter(p => p.length)`, which is also
`relative.split('/').filter(Boolean)`: the non-empty segments of a path. -/
def segments (relative : String) : List String :=
  ((splitSlash relative.data).filter (fun p => p ≠ [])).map String.mk

/-- `parts.join('/')`. -/
def joinSlash : List String → String
  | [] => ""
  | [p] => p
  | p :: q :: rest => p ++ "/" ++ joinSlash (q :: rest)

/-! ## JavaScript `Map` -/

/-- `m.get(k)`; `none` is `undefined`. -/
def mapGet {κ υ : Type} [DecidableEq κ] : List (κ × υ) → κ → Option υ
  | [], _ => none
  | (k', v) :: m, k => if k' = k then some v else mapGet m k

/-- `m.has(k)`. -/
def mapHas {κ υ : Type} [DecidableEq κ] (m : List (κ × υ)) (k : κ) : Bool :=
  (mapGet m k).isSome

/-- `m.set(k, v)`: a present key keeps its place in the iteration order, a new
key goes to the end. -/
def mapSet {κ υ : Type} [DecidableEq κ] : List (κ × υ) → κ → υ → List (κ × υ)
  | [], k, v => [(k, v)]
  | (k', v') :: m, k, v => if k' = k then (k', v) :: m else (k', v') :: mapSet m k v

/-- `m.delete(k)`. -/
def mapDelete {κ υ : Type} [DecidableEq κ] : List (κ × υ) → κ → List (κ × υ)
  | [], _ => []
  | (k', v') :: m, k => if k' = k then m else (k', v') :: mapDelete m k

/-! ## Data model -/

/-- The `meta` object of a file node, `{ uid }`. -/
structure Meta where
  uid : String
deriving DecidableEq, Repr

/-- A node object of a physical tree.  `children` is `none` when the slot is
`null` or missing; `isDirectory` is the truthiness of the flag (a node written
without the flag, such as a store root, has it falsy); `meta` is `none` when
the slot is `null` or missing. -/
inductive Node where
  | mk (name : String) (children : Option (List Node)) (isDirectory : Bool)
      (meta : Option Meta) : Node
deriving Repr

namespace Node

def name : Node → String
  | mk n _ _ _ => n

def children : Node → Option (List Node)
  | mk _ cs _ _ => cs

def isDirectory : Node → Bool
  | mk _ _ d _ => d

def meta : Node → Option Meta
  | mk _ _ _ m => m

/-- The node after an assignment to, or a mutation of, its `children` slot. -/
def setChildren : Node → Option (List Node) → Node
  | mk n _ d m, cs => mk n cs d m

end Node

/-- The kinds of error the program throws. -/
inductive Error where
  /-- `Unknown physical store: …` (mount). -/
  | unknownStore
  /-- `No mount matches: …` (resolve). -/
  | noMountMatch
  /-- `No physical store: …` (_walk). -/
  | noPhysicalStore
  /-- `Parent folder not found: …` (createFile, createFolder) and
  `Parent not found` (delete). -/
  | parentNotFound
  /-- `Cannot delete root` (delete). -/
  | cannotDeleteRoot
  /-- `Not a file` (load). -/
  | notAFile
  /-- The `TypeError` of the runtime for a property read on `null` or
  `undefined` (`node.children.find`, `.push`, `.filter` on a file node). -/
  | typeError
deriving DecidableEq, Repr

deriving instance DecidableEq for Except

/-- The state of a `VirtualFileSystem`: the two maps of the constructor. -/
structure State where
  mounts : List (String × String)
  physicalStores : List (String × Node)

/-- `new VirtualFileSystem()`. -/
def State.new : State :=
  { mounts := [], physicalStores := [] }

/-- The tree `createPhysicalStore` installs when none is given. -/
def emptyRoot : Node :=
  Node.mk "/" (some []) false none

/-- `createPhysicalStore(name, tree)`. -/
def createPhysicalStore (v : State) (name : String) (tree : Option Node) : State :=
  { v with physicalStores := mapSet v.physicalStores name (tree.getD emptyRoot) }

/-- The first line of `mount` and of `unmount`: the mount point with a trailing
slash. -/
def canonical (mountPoint : String) : String :=
  if endsWithSlash mountPoint then mountPoint else mountPoint ++ "/"

/-- `mount(mountPoint, physicalName)`. -/
def mount (v : State) (mountPoint physicalName : String) : State × Except Error Unit :=
  let mountPoint := canonical mountPoint
  if !mapHas v.physicalStores physicalName then (v, .error .unknownStore)
  else ({ v with mounts := mapSet v.mounts mountPoint physicalName }, .ok ())

/-- `unmount(mountPoint)`. -/
def unmount (v : State) (mountPoint : String) : State :=
  { v with mounts := mapDelete v.mounts (canonical mountPoint) }

/-- The result object of `resolve`. -/
structure Resolved where
  physicalName : String
  relative : String
deriving DecidableEq, Repr

/-- The test of the loop of `resolve` for one mount point. -/
def mountMatches (virtualPath mountPoint : String) : Bool :=
  virtualPath == sliceInit mountPoint || startsWith virtualPath mountPoint

/-- The body of `resolve` for a matching entry. -/
def resolved (virtualPath mountPoint physicalName : String) : Resolved :=
  let rel := sliceFrom virtualPath mountPoint.length
  { physicalName := physicalName, relative := if rel = "" then "/" else rel }

/-- The loop of `resolve` over the entries of the mount table. -/
def resolveIn : List (String × String) → String → Except Error Resolved
  | [], _ => .error .noMountMatch
  | (mountPoint, physicalName) :: rest, virtualPath =>
    if mountMatches virtualPath mountPoint then
      .ok (resolved virtualPath mountPoint physicalName)
    else resolveIn rest virtualPath

/-- `resolve(virtualPath)`. -/
def resolve (v : State) (virtualPath : String) : Except Error Resolved :=
  resolveIn v.mounts virtualPath

/-! ## Walking a physical tree -/

/-- The result object of `_walk`: the values of the two node objects at the
moment `_walk` returns (`none` is `null`). -/
structure WalkResult where
  parent : Option Node
  node : Option Node

/-- `children.find(c => c.name === part)`. -/
def findChild (part : String) (children : List Node) : Option Node :=
  children.find? (fun c => c.name = part)

/-- The children of a node after the child that `find` returned for `part`
(the first of that name) has become `child`: the effect, seen from the parent,
of a mutation below that child. -/
def replaceChild (part : String) (child : Node) : List Node → List Node
  | [] => []
  | c :: cs => if c.name = part then child :: cs else c :: replaceChild part child cs

/-- The node `_walk` synthesizes for a missing segment:
`{ name: part, children: [], isDirectory: i < parts.length-1 }`; `more` says
whether segments remain after this one. -/
def synthesized (part : String) (more : Bool) : Node :=
  Node.mk part (some []) more none

/-- The `for` loop of `_walk`, from `node` over the segments still to go.
Returns the value of `node` after the loop (it has grown when nodes were
synthesized below it) and what `_walk` returns or throws.  `parent` is the
variable of that name: the node of the previous iteration. -/
def walkLoop (createIfMissing : Bool) : Option Node → Node → List String → Node × Except Error WalkResult
  | parent, node, [] => (node, .ok { parent := parent, node := some node })
  | _, node, part :: rest =>
    match node.children with
    | none => (node, .error .typeError)
    | some cs =>
      match findChild part cs with
      | some child =>
        let below := walkLoop createIfMissing (some node) child rest
        (node.setChildren (some (replaceChild part below.1 cs)), below.2)
      | none =>
        if createIfMissing then
          let child := synthesized part (!rest.isEmpty)
          let below := walkLoop createIfMissing (some (node.setChildren (some (cs ++ [child])))) child rest
          (node.setChildren (some (cs ++ [below.1])), below.2)
        else (node, .ok { parent := some node, node := none })

/-- The segments `_walk` descends for `relative`: none when it returns the
root at once (`!relative || relative === '/'`). -/
def walkParts (relative : String) : List String :=
  if relative = "" ∨ relative = "/" then [] else segments relative

/-- `_walk(physicalName, relative, createIfMissing)`; the state returned is the
one the call leaves behind. -/
def _walk (v : State) (physicalName relative : String) (createIfMissing : Bool) :
    State × Except Error WalkResult :=
  match mapGet v.physicalStores physicalName with
  | none => (v, .error .noPhysicalStore)
  | some root =>
    if relative = "" ∨ relative = "/" then (v, .ok { parent := none, node := some root })
    else
      let r := walkLoop createIfMissing none root (segments relative)
      ({ v with physicalStores := mapSet v.physicalStores physicalName r.1 }, r.2)

/-- A write `f` to the node object that the loop of `_walk` reaches from `node`
along `parts` (each step takes the first child of that name), seen from
`node`. -/
def mutateAt (f : Node → Node) : Node → List String → Node
  | node, [] => f node
  | node, part :: rest =>
    match node.children with
    | none => node
    | some cs =>
      match findChild part cs with
      | none => node
      | some child => node.setChildren (some (replaceChild part (mutateAt f child rest) cs))

/-- A write `f` through the `node` reference that
`_walk(physicalName, relative)` returned. -/
def mutateNode (v : State) (physicalName relative : String) (f : Node → Node) : State :=
  match mapGet v.physicalStores physicalName with
  | none => v
  | some root =>
    { v with physicalStores :=
        mapSet v.physicalStores physicalName (mutateAt f root (walkParts relative)) }

/-! ## Queries -/

/-- `exists(virtualPath)`: the `try` block, with `catch` returning `false`. -/
def «exists» (v : State) (virtualPath : String) : Bool :=
  match resolve v virtualPath with
  | .error _ => false
  | .ok r =>
    match (_walk v r.physicalName r.relative false).2 with
    | .error _ => false
    | .ok w => w.node.isSome

/-- The node a virtual path denotes, if any: `resolve` followed by the
non-creating `_walk`, the opening lines of `exists`, `list`, `scanTree` and
`load`. -/
def nodeAt (v : State) (virtualPath : String) : Option Node :=
  match resolve v virtualPath with
  | .error _ => none
  | .ok r =>
    match (_walk v r.physicalName r.relative false).2 with
    | .error _ => none
    | .ok w => w.node

/-- The node the loop of `_walk` reaches from `node` along `parts` without
creating any, `none` when a segment is missing or a node on the way has no
`children` array: the `node` field of `walkLoop false`, if it returns. -/
def reach : Node → List String → Option Node
  | node, [] => some node
  | node, part :: rest =>
    match node.children with
    | none => none
    | some cs =>
      match findChild part cs with
      | none => none
      | some child => reach child rest

/-- An entry of the array `list` returns. -/
structure Entry where
  name : String
  isDirectory : Bool
  path : String
deriving DecidableEq, Repr

/-- The loop of `_joinVirtual` over the mount table. -/
def joinVirtualIn : List (String × String) → String → String → String → String
  | [], _, _, name => name
  | (mountPoint, pName) :: rest, physicalName, relative, name =>
    if pName = physicalName then
      let base := mountPoint ++
        (if relative = "/" then "" else relative ++ (if endsWithSlash relative then "" else "/"))
      base ++ name
    else joinVirtualIn rest physicalName relative name

/-- `_joinVirtual(physicalName, relative, name)`. -/
def _joinVirtual (v : State) (physicalName relative name : String) : String :=
  joinVirtualIn v.mounts physicalName relative name

/-- `list(virtualPath)`. -/
def list (v : State) (virtualPath : String) : Except Error (List Entry) :=
  match resolve v virtualPath with
  | .error e => .error e
  | .ok r =>
    match (_walk v r.physicalName r.relative false).2 with
    | .error e => .error e
    | .ok w =>
      match w.node with
      | none => .ok []
      | some node =>
        .ok ((node.children.getD []).map (fun c =>
          { name := c.name
            isDirectory := c.children.isSome
            path := _joinVirtual v r.physicalName r.relative c.name }))

/-- A node of the tree `scanTree` returns. -/
inductive View where
  | mk (name : String) (isDirectory : Bool) (virtualPath : String) (children : List View) : View
deriving Repr

namespace View

def name : View → String
  | mk n _ _ _ => n

def isDirectory : View → Bool
  | mk _ d _ _ => d

def virtualPath : View → String
  | mk _ _ p _ => p

def children : View → List View
  | mk _ _ _ cs => cs

end View

/-- The path `build` gives to a child:
`curPath + (curPath.endsWith('/') ? '' : '/') + c.name`. -/
def childPath (curPath name : String) : String :=
  curPath ++ (if endsWithSlash curPath then "" else "/") ++ name

mutual
/-- The inner function `build(n, curPath)` of `scanTree`. -/
def build : Node → String → View
  | Node.mk n none _ _, curPath => View.mk n false curPath []
  | Node.mk n (some cs) _ _, curPath => View.mk n true curPath (buildAll cs curPath)
/-- The `map` of `build` over the children of a node with path `curPath`. -/
def buildAll : List Node → String → List View
  | [], _ => []
  | c :: cs, curPath => build c (childPath curPath c.name) :: buildAll cs curPath
end

/-- The inner function `mountRootForPhysical(vfs, p)` of `scanTree`, on the
mount table: the first mount point bound to store `p`, else `/`. -/
def mountRootForPhysical : List (String × String) → String → String
  | [], _ => "/"
  | (mp, pn) :: rest, p => if pn = p then mp else mountRootForPhysical rest p

/-- The loop of `scanTree` that computes `prefix`; `none` is the initial
`null`. -/
def scanBase : List (String × String) → String → String → Option String
  | [], _, _ => none
  | (mp, pn) :: rest, physicalName, relative =>
    if pn = physicalName then
      let base := mp ++ (if relative = "/" then "" else relative)
      some (if endsWithSlash base then base else base ++ "/")
    else scanBase rest physicalName relative

/-- `scanTree(virtualPath)`; `.ok none` is the `null` result.  A `null` prefix
concatenates as the text `null`. -/
def scanTree (v : State) (virtualPath : String) : Except Error (Option View) :=
  match resolve v virtualPath with
  | .error e => .error e
  | .ok r =>
    match (_walk v r.physicalName r.relative false).2 with
    | .error e => .error e
    | .ok w =>
      match w.node with
      | none => .ok none
      | some node =>
        let base := (scanBase v.mounts r.physicalName r.relative).getD "null"
        .ok (some (build node (base ++ (if r.relative = "/" then "" else r.relative))))

/-! ## Mutations -/

/-- The node `createFile` pushes; `uid` is what `_makeUID()` returned. -/
def newFile (name uid : String) : Node :=
  Node.mk name none false (some { uid := uid })

/-- The node `createFolder` pushes. -/
def newFolder (name : String) : Node :=
  Node.mk name (some []) true none

/-- `node.children.push(child)`, on a node whose `children` is an array. -/
def pushChild (child : Node) (node : Node) : Node :=
  node.setChildren (node.children.map (fun cs => cs ++ [child]))

/-- The common body of `createFile` and `createFolder`, which differ in the
node they push. -/
def createNode (v : State) (virtualParent : String) (child : Node) : State × Except Error Unit :=
  match resolve v virtualParent with
  | .error e => (v, .error e)
  | .ok r =>
    match _walk v r.physicalName r.relative true with
    | (v1, .error e) => (v1, .error e)
    | (v1, .ok p) =>
      match p.node with
      | none => (v1, .error .parentNotFound)
      | some node =>
        match node.children with
        | none => (v1, .error .typeError)
        | some _ => (mutateNode v1 r.physicalName r.relative (pushChild child), .ok ())

/-- `createFile(virtualParent, name)`; `uid` is the value the call of
`_makeUID()` (a random string) returns. -/
def createFile (v : State) (virtualParent name uid : String) : State × Except Error Unit :=
  createNode v virtualParent (newFile name uid)

/-- `createFolder(virtualParent, name)`. -/
def createFolder (v : State) (virtualParent name : String) : State × Except Error Unit :=
  createNode v virtualParent (newFolder name)

/-- `parent.node.children = parent.node.children.filter(c => c.name !== name)`,
on a node whose `children` is an array. -/
def removeChildren (name : String) (node : Node) : Node :=
  node.setChildren (node.children.map (fun cs => cs.filter (fun c => c.name ≠ name)))

/-- `delete(virtualPath)`. -/
def delete (v : State) (virtualPath : String) : State × Except Error Unit :=
  match resolve v virtualPath with
  | .error e => (v, .error e)
  | .ok r =>
    let parts := segments r.relative
    match parts.getLast? with
    | none => (v, .error .cannotDeleteRoot)
    | some name =>
      let parentRel := joinSlash parts.dropLast
      match _walk v r.physicalName parentRel false with
      | (v1, .error e) => (v1, .error e)
      | (v1, .ok parent) =>
        match parent.node with
        | none => (v1, .error .parentNotFound)
        | some node =>
          match node.children with
          | none => (v1, .error .typeError)
          | some _ => (mutateNode v1 r.physicalName parentRel (removeChildren name), .ok ())

/-! ## The asset manager -/

/-- The handle object `load` builds.  `handle` is a JavaScript number that
only ever holds `1, 2, 3, …`; it is a natural number here.  `loadedAt` is the
value of `Date.now()`. -/
structure Handle where
  handle : Nat
  uid : Option String
  path : String
  loadedAt : Nat
deriving DecidableEq, Repr

/-- The state of an `AssetManager` other than its `vfs` reference, which the
operations take as an argument. -/
structure AssetManager where
  uidToHandle : List (Option String × Handle)
  nextHandle : Nat
  handles : List (Nat × Handle)
deriving DecidableEq, Repr

/-- `new AssetManager(vfs)`. -/
def AssetManager.new : AssetManager :=
  { uidToHandle := [], nextHandle := 1, handles := [] }

/-- What a call of `load` leaves behind and returns (`none` is `null`). -/
structure Loaded where
  vfs : State
  manager : AssetManager
  result : Option Handle

/-- `node.meta && node.meta.uid ? node.meta.uid : null`. -/
def uidOf (node : Node) : Option String :=
  match node.meta with
  | none => none
  | some m => if m.uid = "" then none else some m.uid

/-- `load(virtualPath)`, with `now` the value of `Date.now()`.  Every `throw`
of the `try` block ends in the `catch`, which returns `null`. -/
def load (vfs : State) (am : AssetManager) (virtualPath : String) (now : Nat) : Loaded :=
  match resolve vfs virtualPath with
  | .error _ => { vfs := vfs, manager := am, result := none }
  | .ok r =>
    match _walk vfs r.physicalName r.relative false with
    | (vfs1, .error _) => { vfs := vfs1, manager := am, result := none }
    | (vfs1, .ok w) =>
      match w.node with
      | none => { vfs := vfs1, manager := am, result := none }
      | some node =>
        if node.isDirectory then { vfs := vfs1, manager := am, result := none }
        else
          let handle : Handle :=
            { handle := am.nextHandle, uid := uidOf node, path := virtualPath, loadedAt := now }
          { vfs := vfs1
            manager :=
              { uidToHandle := mapSet am.uidToHandle handle.uid handle
                nextHandle := am.nextHandle + 1
                handles := mapSet am.handles handle.handle handle }
            result := some handle }

/-- `getHandleByUID(uid)`; `none` is `undefined`. -/
def getHandleByUID (am : AssetManager) (uid : Option String) : Option Handle :=
  mapGet am.uidToHandle uid

/-- `getHandleById(id)`; `none` is `undefined`. -/
def getHandleById (am : AssetManager) (id : Nat) : Option Handle :=
  mapGet am.handles id

/-- The path annotation of a tree that `scanTree` returns: at every node, each
child has the path `childPath` forms from the path of the node and the name of
the child. -/
inductive View.Joined : View → Prop
  | mk (n : String) (d : Bool) (p : String) (cs : List View)
      (hpath : ∀ c ∈ cs, c.virtualPath = childPath p c.name)
      (hrec : ∀ c ∈ cs, View.Joined c) :
      View.Joined (View.mk n d p cs)

/-- A step from state `v` to state `v2` keeps the files of store `k` at the
segments `fs`: the mount table is the same and, if `fs` reached a file node
(`children` absent) in store `k` before, it reaches the same node after. -/
def KeepsFile (v v2 : State) (k : String) (fs : List String) : Prop :=
  v2.mounts = v.mounts ∧
  ∀ R n, mapGet v.physicalStores k = some R → reach R fs = some n → n.children = none →
    ∃ T, mapGet v2.physicalStores k = some T ∧ reach T fs = some n

/-- What `mount`, the only writer of the mount table besides `unmount`,
maintains: every mount point ends with a slash and is bound to a store that
exists. -/
def WellFormed (v : State) : Prop :=
  ∀ e ∈ v.mounts, endsWithSlash e.1 = true ∧ mapHas v.physicalStores e.2 = true

instance (v : State) : Decidable (WellFormed v) := by
  unfold WellFormed
  infer_instance

/-- A file with UID `u` is at the virtual path `F`: the path denotes a node
whose `children` slot is absent and whose `meta.uid` is `u`. -/
def fileWithUID (v : State) (F u : String) : Prop :=
  ∃ n, nodeAt v F = some n ∧ n.children = none ∧ n.meta = some { uid := u }

/-- One call `load(path)` of a sequence: the state the file system is in when
the call is made, the argument, and the value of `Date.now()`. -/
structure LoadCall where
  vfs : State
  path : String
  now : Nat

/-- A sequence of `load` calls on one manager: the manager at the end and what
each call returned, in call order. -/
def runLoads : AssetManager → List LoadCall → AssetManager × List (Option Handle)
  | am, [] => (am, [])
  | am, c :: cs =>
    let out := load c.vfs am c.path c.now
    let rest := runLoads out.manager cs
    (rest.1, out.result :: rest.2)

/-- The handles a sequence of calls returned, the `null` results left out. -/
def successes (results : List (Option Handle)) : List Handle :=
  results.filterMap id

/-! ## What a creating walk synthesizes -/

/-- The nodes `_walk` synthesizes for the missing segments `part :: rest` when
it returns: one below the other, each the only child of the one above, the
flag `isDirectory` true on all but the last. -/
def chain : String → List String → Node
  | part, [] => synthesized part false
  | part, next :: rest => Node.mk part (some [chain next rest]) true none

/-- The last node of `chain part rest`: the node synthesized for the final
segment. -/
def chainLeaf : String → List String → Node
  | part, [] => synthesized part false
  | _, next :: rest => chainLeaf next rest

/-- The node that holds `chainLeaf part rest` when the chain hangs below `d`:
`d` itself, with the leaf pushed, when `part` is the only missing segment, and
else the node synthesized for the segment before the last, with the leaf
pushed. -/
def container (d : Node) : String → List String → Node
  | part, [] => pushChild (synthesized part false) d
  | part, next :: rest => container (synthesized part true) next rest

/-- Whether the non-creating loop of `_walk` from `node` along `parts`,
followed by a read of the `children` array of the node it returns, meets a
node without such an array: on the way, with a segment still to look up, or at
the end. -/
def fileOnPath : Node → List String → Bool
  | node, [] => node.children.isNone
  | node, part :: rest =>
    match node.children with
    | none => true
    | some cs =>
      match findChild part cs with
      | none => false
      | some child => fileOnPath child rest

/-! ## Names among siblings -/

mutual
/-- Whether, at every node of the tree below and including `node`, no two
children have the same name. -/
def uniqueNames : Node → Bool
  | Node.mk _ none _ _ => true
  | Node.mk _ (some cs) _ _ => decide ((cs.map Node.name).Nodup) && uniqueNamesAll cs
/-- Whether `uniqueNames` holds of every node of a list. -/
def uniqueNamesAll : List Node → Bool
  | [] => true
  | c :: cs => uniqueNames c && uniqueNamesAll cs
end

/-- Names are unique among siblings in every physical store. -/
def StoresUnique (v : State) : Prop :=
  ∀ e ∈ v.physicalStores, uniqueNames e.2 = true

instance (v : State) : Decidable (StoresUnique v) := by
  unfold StoresUnique
  infer_instance

/-- A name that is not empty and has no slash. -/
def goodName (name : String) : Bool :=
  decide (name ≠ "") && name.data.all (fun c => decide (c ≠ '/'))

mutual
/-- Whether every node below `node` (not `node` itself: a store root is called
`/`) has a name that is not empty and has no slash. -/
def goodNames : Node → Bool
  | Node.mk _ none _ _ => true
  | Node.mk _ (some cs) _ _ => goodNamesAll cs
/-- Whether every node of a list, and every node below it, has such a name. -/
def goodNamesAll : List Node → Bool
  | [] => true
  | c :: cs => goodName c.name && goodNames c && goodNamesAll cs
end

/-! ## The words of the specification about `resolve` -/

/-- The spec's "mount point with its trailing slash stripped". -/
def specStripped (mountPoint : String) : String :=
  if endsWithSlash mountPoint then sliceInit mountPoint else mountPoint

/-- The spec's test of an entry: the mount point with its trailing slash
stripped equals the path, or the mount point is a prefix of the path. -/
def specMatches (virtualPath mountPoint : String) : Prop :=
  virtualPath = specStripped mountPoint ∨ mountPoint.data <+: virtualPath.data

/-- The spec's relative path: the path with the length of the mount point
removed from its front, replaced by `/` when that remainder is empty. -/
def specRelative (virtualPath mountPoint : String) : String :=
  if virtualPath.data.drop mountPoint.data.length = [] then "/"
  else String.mk (virtualPath.data.drop mountPoint.data.length)

/-! ## The demo instance -/

/-- The tree given to `DemoVFS.createPhysicalStore('proj1', …)`. -/
def demoTree : Node :=
  Node.mk "/" (some [
    Node.mk "assets" (some [
      Node.mk "models" (some [
        Node.mk "tree.fbx" none false (some { uid := "mesh1" })]) true none,
      Node.mk "textures" (some [
        Node.mk "wood.png" none false (some { uid := "tex1" })]) true none]) true none,
    Node.mk "scenes" (some [
      Node.mk "level1.scene" none false (some { uid := "scene1" })]) true none])
    false none

/-- `DemoVFS` once the module has run: store `proj1` mounted at `res://`. -/
def DemoVFS : State :=
  (mount (createPhysicalStore State.new "proj1" (some demoTree)) "res://" "proj1").1


/-! ## Strings: basic facts -/

theorem startsWith_append (s t : String) : startsWith (s ++ t) s = true := by
  simp [startsWith, String.data_append, List.isPrefixOf_iff_prefix]

theorem sliceFrom_append (s t : String) : sliceFrom (s ++ t) s.length = t := by
  cases s with
  | mk cs =>
    cases t with
    | mk ct =>
      show String.mk (List.drop cs.length (cs ++ ct)) = String.mk ct
      rw [List.drop_left]

theorem mountMatches_append (s t : String) : mountMatches (s ++ t) s = true := by
  simp [mountMatches, startsWith_append]

theorem resolved_append (mp t pn : String) :
    resolved (mp ++ t) mp pn = { physicalName := pn, relative := if t = "" then "/" else t } := by
  simp [resolved, sliceFrom_append]

/-! ## Maps: basic facts -/

theorem resolveIn_mapSet (m : List (String × String)) (key pn path : String)
    (hkey : mountMatches path key = true)
    (hfirst : ∀ e ∈ m.takeWhile (fun e => e.1 ≠ key), mountMatches path e.1 = false) :
    resolveIn (mapSet m key pn) path = .ok (resolved path key pn) := by
  induction m with
  | nil => simp [mapSet, resolveIn, hkey]
  | cons e m ih =>
    obtain ⟨k, x⟩ := e
    by_cases hk : k = key
    · subst hk
      simp [mapSet, resolveIn, hkey]
    · have hcons : List.takeWhile (fun e => decide (e.1 ≠ key)) ((k, x) :: m)
          = (k, x) :: List.takeWhile (fun e => decide (e.1 ≠ key)) m := by
        simp [List.takeWhile_cons, hk]
      rw [hcons] at hfirst
      have h1 : mountMatches path k = false := hfirst (k, x) (List.mem_cons_self _ _)
      have h2 : ∀ e ∈ m.takeWhile (fun e => e.1 ≠ key), mountMatches path e.1 = false :=
        fun e he => hfirst e (List.mem_cons_of_mem _ he)
      simp [mapSet, hk, resolveIn, h1, ih h2]

/-! ## C1, C2: mount and resolve -/

/-- C1 (as stated, refuted): on the demo instance, whose store `proj1` exists,
`mount("mnt", "proj1")` succeeds and `resolve("mnt" + "/anything")` then
returns the relative path `anything`, not `/anything`.  And where `res:/` is
mounted on store `a` before `mount("res://", "b")`, `resolve("res://" +
"/anything")` returns store `a`, the first entry that matches, not `b`. -/
theorem mount_resolve_counterexample :
    (mapHas DemoVFS.physicalStores "proj1" = true ∧
      (mount DemoVFS "mnt" "proj1").2 = .ok () ∧
      resolve (mount DemoVFS "mnt" "proj1").1 ("mnt" ++ "/anything")
        = .ok { physicalName := "proj1", relative := "anything" } ∧
      resolve (mount DemoVFS "mnt" "proj1").1 ("mnt" ++ "/anything")
        ≠ .ok { physicalName := "proj1", relative := "/anything" }) ∧
    (mapHas (mount (createPhysicalStore (createPhysicalStore State.new "a" none) "b" none)
        "res:/" "a").1.physicalStores "b" = true ∧
      (mount (mount (createPhysicalStore (createPhysicalStore State.new "a" none) "b" none)
        "res:/" "a").1 "res://" "b").2 = .ok () ∧
      resolve (mount (mount (createPhysicalStore (createPhysicalStore State.new "a" none) "b" none)
        "res:/" "a").1 "res://" "b").1 ("res://" ++ "/anything")
        = .ok { physicalName := "a", relative := "//anything" }) := by
  decide

/-- C1 (amended): for every state, every created store `S`, every mount point
`M` and every suffix `a`, if no entry that precedes the entry of `M` in the
mount table matches `M + "/" + a`, then `mount(M, S)` succeeds and afterwards
`resolve(M + "/" + a)` returns store `S` with relative path `"/" + a` when `M`
ends with a slash, and `a` (`"/"` when `a` is empty) when it does not. -/
theorem mount_resolve_roundtrip (v : State) (S M a : String)
    (hS : mapHas v.physicalStores S = true)
    (hfirst : ∀ e ∈ v.mounts.takeWhile (fun e => e.1 ≠ canonical M),
      mountMatches (M ++ "/" ++ a) e.1 = false) :
    (mount v M S).2 = .ok () ∧
    resolve (mount v M S).1 (M ++ "/" ++ a)
      = .ok { physicalName := S
              relative := if endsWithSlash M then "/" ++ a else if a = "" then "/" else a } := by
  have hm : mount v M S = ({ v with mounts := mapSet v.mounts (canonical M) S }, .ok ()) := by
    simp [mount, hS]
  rw [hm]
  refine ⟨rfl, ?_⟩
  by_cases hM : endsWithSlash M = true
  · have hc : canonical M = M := by simp [canonical, hM]
    have hp : M ++ "/" ++ a = M ++ ("/" ++ a) := by rw [String.append_assoc]
    rw [hc] at hfirst
    rw [hp] at hfirst ⊢
    simp only [resolve, hc]
    rw [resolveIn_mapSet _ _ _ _ (mountMatches_append _ _) hfirst, resolved_append]
    have hne : "/" ++ a ≠ "" := by
      intro h
      have := congrArg String.data h
      simp [String.data_append] at this
    simp [hM, hne]
  · have hc : canonical M = M ++ "/" := by simp [canonical, hM]
    rw [hc] at hfirst
    simp only [resolve, hc]
    rw [resolveIn_mapSet _ _ _ _ (mountMatches_append _ _) hfirst, resolved_append]
    simp [hM]

/-- C1 (amended), at an instance: on the demo table the mount point `mnt` has
no predecessor that matches `mnt/anything`. -/
theorem mount_resolve_roundtrip_witness :
    mapHas DemoVFS.physicalStores "proj1" = true ∧
    resolve (mount DemoVFS "mnt" "proj1").1 ("mnt" ++ "/" ++ "anything")
      = .ok { physicalName := "proj1", relative := "anything" } :=
  ⟨by decide, (mount_resolve_roundtrip DemoVFS "proj1" "mnt" "anything" (by decide) (by decide)).2⟩

/-- C2 (as stated, refuted): on the demo instance
`resolve("res://assets/models/tree.fbx")` is not
`{physicalName: "proj1", relative: "/assets/models/tree.fbx"}`. -/
theorem resolve_demo_counterexample :
    resolve DemoVFS "res://assets/models/tree.fbx"
      ≠ .ok { physicalName := "proj1", relative := "/assets/models/tree.fbx" } := by
  decide

/-- C2 (amended): on the demo instance `resolve("res://assets/models/tree.fbx")`
returns `{physicalName: "proj1", relative: "assets/models/tree.fbx"}`: the
relative path has no leading slash. -/
theorem resolve_demo :
    resolve DemoVFS "res://assets/models/tree.fbx"
      = .ok { physicalName := "proj1", relative := "assets/models/tree.fbx" } := by
  decide

/-! ## C5: the root guard of delete -/

/-- C5: for every state and every virtual path that resolves to a relative path
with no non-empty segment, `delete` throws `Cannot delete root` and leaves the
whole state (mount table and physical stores) as it was. -/
theorem delete_root_guard (v : State) (virtualPath : String) (r : Resolved)
    (hr : resolve v virtualPath = .ok r) (hseg : segments r.relative = []) :
    delete v virtualPath = (v, .error .cannotDeleteRoot) := by
  simp [delete, hr, hseg]

/-- C5 at the demo instance: the mount root `res://`, the mount point without
its trailing slash, and the mount point followed by slashes only. -/
theorem delete_root_guard_witness :
    delete DemoVFS "res://" = (DemoVFS, .error .cannotDeleteRoot) ∧
    delete DemoVFS "res:/" = (DemoVFS, .error .cannotDeleteRoot) ∧
    delete DemoVFS "res:////" = (DemoVFS, .error .cannotDeleteRoot) :=
  ⟨delete_root_guard DemoVFS "res://" ⟨"proj1", "/"⟩ (by decide) (by decide),
   delete_root_guard DemoVFS "res:/" ⟨"proj1", "/"⟩ (by decide) (by decide),
   delete_root_guard DemoVFS "res:////" ⟨"proj1", "//"⟩ (by decide) (by decide)⟩

/-! ## C6: load on a directory -/

/-- C6 (the code at the failing inputs): on the demo instance `res://` resolves
to the store root, a node whose `children` is an array, and `load("res://")`
returns a handle (id 1, uid `null`) instead of `null`; and after
`createFile("res://a/b", "x")` the synthesized node `b`, whose `children` is
an array, is loaded as well. -/
theorem load_directory_returns_handle :
    (nodeAt DemoVFS "res://").map (fun n => n.children.isSome) = some true ∧
    (load DemoVFS AssetManager.new "res://" 0).result
      = some { handle := 1, uid := none, path := "res://", loadedAt := 0 } ∧
    (createFile DemoVFS "res://a/b" "x" "u").2 = .ok () ∧
    (nodeAt (createFile DemoVFS "res://a/b" "x" "u").1 "res://a/b").map
      (fun n => n.children.isSome) = some true ∧
    (load (createFile DemoVFS "res://a/b" "x" "u").1 AssetManager.new "res://a/b" 0).result
      = some { handle := 1, uid := none, path := "res://a/b", loadedAt := 0 } := by
  decide

/-! ## Maps: lookups after `set` -/

theorem mapGet_mapSet_self {κ υ : Type} [DecidableEq κ] (m : List (κ × υ)) (k : κ) (x : υ) :
    mapGet (mapSet m k x) k = some x := by
  induction m with
  | nil => simp [mapSet, mapGet]
  | cons e m ih =>
    obtain ⟨k', x'⟩ := e
    by_cases hk : k' = k
    · simp [mapSet, mapGet, hk]
    · simp [mapSet, mapGet, hk, ih]

theorem mapGet_mapSet_other {κ υ : Type} [DecidableEq κ] (m : List (κ × υ)) (k k0 : κ) (x : υ)
    (h : k0 ≠ k) : mapGet (mapSet m k x) k0 = mapGet m k0 := by
  induction m with
  | nil =>
    have h' : ¬ k = k0 := fun e => h e.symm
    simp [mapSet, mapGet, h']
  | cons e m ih =>
    obtain ⟨k', x'⟩ := e
    by_cases hk : k' = k
    · subst hk
      have h' : ¬ k' = k0 := fun e => h e.symm
      simp [mapSet, mapGet, h']
    · by_cases hk0 : k' = k0
      · subst hk0
        simp [mapSet, mapGet, h]
      · simp [mapSet, mapGet, hk, hk0, ih]

/-! ## C7, C10: handles -/

/-- What one `load` does to the manager: nothing when it returns `null`;
otherwise the handle carries the next id and is entered in both maps. -/
theorem load_cases (vfs : State) (am : AssetManager) (path : String) (now : Nat) :
    ((load vfs am path now).manager = am ∧ (load vfs am path now).result = none) ∨
    ∃ h : Handle, h.handle = am.nextHandle ∧ h.path = path ∧
      (load vfs am path now).result = some h ∧
      (load vfs am path now).manager =
        { uidToHandle := mapSet am.uidToHandle h.uid h
          nextHandle := am.nextHandle + 1
          handles := mapSet am.handles h.handle h } := by
  unfold load
  cases hr : resolve vfs path with
  | error e => simp
  | ok r =>
    simp only
    rcases hw : _walk vfs r.physicalName r.relative false with ⟨v1, _ | ⟨wp, _ | node⟩⟩
    · simp
    · simp
    · by_cases hd : node.isDirectory = true
      · simp [hd]
      · right
        exact ⟨{ handle := am.nextHandle, uid := uidOf node, path := path, loadedAt := now },
          rfl, rfl, by simp [hd], by simp [hd]⟩

/-- The invariant behind C7, from any manager: every handle a sequence of calls
returns has an id from the manager's next id on and below the final next id,
the ids increase strictly, each returned handle is what its id looks up at the
end, and the ids below the first next id look up what they did before. -/
theorem runLoads_spec (calls : List LoadCall) :
    ∀ am : AssetManager,
      am.nextHandle ≤ (runLoads am calls).1.nextHandle ∧
      (∀ h ∈ successes (runLoads am calls).2,
        am.nextHandle ≤ h.handle ∧ h.handle < (runLoads am calls).1.nextHandle ∧
        getHandleById (runLoads am calls).1 h.handle = some h) ∧
      (successes (runLoads am calls).2).Pairwise (fun a b => a.handle < b.handle) ∧
      (∀ k, k < am.nextHandle →
        getHandleById (runLoads am calls).1 k = getHandleById am k) := by
  induction calls with
  | nil =>
    intro am
    simp [runLoads, successes]
  | cons c cs ih =>
    intro am
    simp only [runLoads]
    rcases load_cases c.vfs am c.path c.now with ⟨hm, hres⟩ | ⟨h, hid, _, hres, hm⟩
    · rw [hm, hres]
      simpa [successes] using ih am
    · obtain ⟨i1, i2, i3, i4⟩ := ih (load c.vfs am c.path c.now).manager
      have hnext : (load c.vfs am c.path c.now).manager.nextHandle = am.nextHandle + 1 := by
        rw [hm]
      have hget : getHandleById (load c.vfs am c.path c.now).manager h.handle = some h := by
        rw [hm]
        exact mapGet_mapSet_self _ _ _
      have hsucc : successes ((load c.vfs am c.path c.now).result ::
          (runLoads (load c.vfs am c.path c.now).manager cs).2)
          = h :: successes (runLoads (load c.vfs am c.path c.now).manager cs).2 := by
        simp [successes, hres]
      rw [hsucc]
      rw [hnext] at i1 i2 i4
      refine ⟨by omega, ?_, ?_, ?_⟩
      · intro h' hh'
        rcases List.mem_cons.1 hh' with rfl | hin
        · refine ⟨by omega, by omega, ?_⟩
          rw [i4 _ (by omega)]
          exact hget
        · obtain ⟨a, b, c'⟩ := i2 h' hin
          exact ⟨by omega, b, c'⟩
      · refine List.Pairwise.cons ?_ i3
        intro h' hh'
        have := (i2 h' hh').1
        omega
      · intro k hk
        rw [i4 k (by omega), hm]
        exact mapGet_mapSet_other _ _ _ _ (by omega)

/-- C7: for every sequence of `load` calls on a new manager (each call made in
any state of the file system, also several on one path), the ids of the
handles returned are strictly increasing in call order, and after the whole
sequence `getHandleById(h.handle)` returns exactly the handle `h` that a call
returned. -/
theorem handle_monotone_lookup (calls : List LoadCall) :
    (successes (runLoads AssetManager.new calls).2).Pairwise (fun a b => a.handle < b.handle) ∧
    ∀ h ∈ successes (runLoads AssetManager.new calls).2,
      getHandleById (runLoads AssetManager.new calls).1 h.handle = some h :=
  ⟨(runLoads_spec calls AssetManager.new).2.2.1,
   fun h hh => ((runLoads_spec calls AssetManager.new).2.1 h hh).2.2⟩

/-- C7 at an instance: two loads of the demo file with a failing load in
between return the ids 1 and 2, and each handle is what its id looks up at the
end. -/
theorem handle_monotone_lookup_witness :
    (successes (runLoads AssetManager.new
      [⟨DemoVFS, "res://assets/models/tree.fbx", 10⟩, ⟨DemoVFS, "res://no/such/file", 11⟩,
       ⟨DemoVFS, "res://assets/models/tree.fbx", 12⟩]).2).map (fun h => h.handle) = [1, 2] ∧
    ∀ h ∈ successes (runLoads AssetManager.new
      [⟨DemoVFS, "res://assets/models/tree.fbx", 10⟩, ⟨DemoVFS, "res://no/such/file", 11⟩,
       ⟨DemoVFS, "res://assets/models/tree.fbx", 12⟩]).2,
      getHandleById (runLoads AssetManager.new
        [⟨DemoVFS, "res://assets/models/tree.fbx", 10⟩, ⟨DemoVFS, "res://no/such/file", 11⟩,
         ⟨DemoVFS, "res://assets/models/tree.fbx", 12⟩]).1 h.handle = some h :=
  ⟨by decide, (handle_monotone_lookup _).2⟩

/-- C10: a `load` that returns a handle `h` leaves `getHandleByUID(h.uid)`
returning exactly `h`, whatever was indexed under that uid before; and on the
demo instance the first `load("res://assets/models/tree.fbx")` of a new manager
returns handle 1 with uid `mesh1` and that path, which `getHandleByUID("mesh1")`
then returns. -/
theorem uid_index (vfs : State) (am : AssetManager) (path : String) (now : Nat) (h : Handle)
    (hload : (load vfs am path now).result = some h) :
    getHandleByUID (load vfs am path now).manager h.uid = some h ∧
    (load DemoVFS AssetManager.new "res://assets/models/tree.fbx" now).result
      = some { handle := 1, uid := some "mesh1", path := "res://assets/models/tree.fbx",
               loadedAt := now } ∧
    getHandleByUID (load DemoVFS AssetManager.new "res://assets/models/tree.fbx" now).manager
        (some "mesh1")
      = some { handle := 1, uid := some "mesh1", path := "res://assets/models/tree.fbx",
               loadedAt := now } := by
  refine ⟨?_, rfl, rfl⟩
  rcases load_cases vfs am path now with ⟨_, hres⟩ | ⟨h', _, _, hres, hm⟩
  · rw [hres] at hload
    cases hload
  · rw [hres] at hload
    cases hload
    rw [hm]
    exact mapGet_mapSet_self _ _ _

/-- C10 at an instance: a second load of the demo file on the manager the first
load left replaces the handle indexed under `mesh1`. -/
theorem uid_index_witness :
    getHandleByUID
        (load DemoVFS (load DemoVFS AssetManager.new "res://assets/models/tree.fbx" 5).manager
          "res://assets/models/tree.fbx" 7).manager (some "mesh1")
      = some { handle := 2, uid := some "mesh1", path := "res://assets/models/tree.fbx",
               loadedAt := 7 } :=
  (uid_index DemoVFS (load DemoVFS AssetManager.new "res://assets/models/tree.fbx" 5).manager
    "res://assets/models/tree.fbx" 7
    { handle := 2, uid := some "mesh1", path := "res://assets/models/tree.fbx", loadedAt := 7 }
    (by decide)).1

/-! ## C9: the paths of scanTree -/

theorem build_virtualPath (n : Node) (p : String) : (build n p).virtualPath = p := by
  obtain ⟨nm, cs, d, m⟩ := n
  cases cs <;> simp [build, View.virtualPath]

theorem build_name (n : Node) (p : String) : (build n p).name = n.name := by
  obtain ⟨nm, cs, d, m⟩ := n
  cases cs <;> simp [build, View.name, Node.name]

theorem buildAll_paths (cs : List Node) (p : String) :
    ∀ c ∈ buildAll cs p, c.virtualPath = childPath p c.name := by
  induction cs with
  | nil => simp [buildAll]
  | cons c cs ih =>
    intro x hx
    simp only [buildAll] at hx
    rcases List.mem_cons.1 hx with rfl | hx
    · rw [build_virtualPath, build_name]
    · exact ih x hx

mutual
theorem build_joined : ∀ (n : Node) (p : String), (build n p).Joined
  | Node.mk nm none d m, p => by
    simp only [build]
    exact View.Joined.mk _ _ _ _ (by simp) (by simp)
  | Node.mk nm (some cs) d m, p => by
    simp only [build]
    exact View.Joined.mk _ _ _ _ (buildAll_paths cs p) (buildAll_joined cs p)
theorem buildAll_joined : ∀ (cs : List Node) (p : String), ∀ c ∈ buildAll cs p, c.Joined
  | [], p => by simp [buildAll]
  | c :: cs, p => by
    intro x hx
    simp only [buildAll] at hx
    rcases List.mem_cons.1 hx with rfl | hx
    · exact build_joined c _
    · exact buildAll_joined cs p x hx
end

theorem resolveIn_store_mounted (m : List (String × String)) (path : String) (r : Resolved)
    (h : resolveIn m path = .ok r) : ∃ mp, (mp, r.physicalName) ∈ m := by
  induction m with
  | nil => simp [resolveIn] at h
  | cons e m ih =>
    obtain ⟨mp, pn⟩ := e
    by_cases hm : mountMatches path mp = true
    · simp [resolveIn, hm] at h
      subst h
      exact ⟨mp, by simp [resolved]⟩
    · simp [resolveIn, hm] at h
      obtain ⟨mp', h'⟩ := ih h
      exact ⟨mp', List.mem_cons_of_mem _ h'⟩

theorem scanBase_root (m : List (String × String)) (pn mp0 : String) (h : (mp0, pn) ∈ m) :
    scanBase m pn "/" = some (canonical (mountRootForPhysical m pn)) := by
  induction m with
  | nil => simp at h
  | cons e m ih =>
    obtain ⟨mp, pn'⟩ := e
    by_cases hp : pn' = pn
    · subst hp
      simp [scanBase, mountRootForPhysical, canonical]
    · have h' : (mp0, pn) ∈ m := by
        rcases List.mem_cons.1 h with h | h
        · exact absurd (congrArg Prod.snd h).symm hp
        · exact h
      simp [scanBase, mountRootForPhysical, hp, ih h']

/-- C9 (as stated, refuted): on the demo instance the scan of the mount root
`res://` gives the child `assets` the path `res://assets`, which is not the
path of its parent followed by `/` and its name; and the scan of the
subdirectory `res://assets` gives its root the path `res://assets/assets`, not
the mount prefix followed by the relative path. -/
theorem scanTree_paths_counterexample :
    (∃ t c, scanTree DemoVFS "res://" = .ok (some t) ∧ c ∈ t.children ∧
      t.virtualPath = "res://" ∧ c.name = "assets" ∧ c.virtualPath = "res://assets" ∧
      c.virtualPath ≠ t.virtualPath ++ "/" ++ c.name) ∧
    (∃ t, resolve DemoVFS "res://assets" = .ok { physicalName := "proj1", relative := "assets" } ∧
      scanTree DemoVFS "res://assets" = .ok (some t) ∧
      t.virtualPath = "res://assets/assets" ∧ t.virtualPath ≠ "res://" ++ "assets") := by
  refine ⟨⟨build demoTree "res://", build (Node.mk "assets" (some [
      Node.mk "models" (some [
        Node.mk "tree.fbx" none false (some { uid := "mesh1" })]) true none,
      Node.mk "textures" (some [
        Node.mk "wood.png" none false (some { uid := "tex1" })]) true none]) true none)
      "res://assets", rfl, ?_, rfl, rfl, rfl, by decide⟩, ?_⟩
  · exact List.mem_cons_self _ _
  · exact ⟨_, by decide, rfl, rfl, by decide⟩

/-- C9 (amended): for every state and every virtual path that resolves to an
existing node, `scanTree` returns a tree with the name of that node at its
root, in which the path of every descendant is the path of its parent followed
by the name of the child, with a `/` in between exactly when the path of the
parent does not end with one; and for a scan of a store root (relative path
`/`) the path of the root is the first mount point bound to the resolved
store, with its trailing slash. -/
theorem scanTree_paths (v : State) (virtualPath : String) (r : Resolved) (node : Node)
    (hr : resolve v virtualPath = .ok r) (hn : nodeAt v virtualPath = some node) :
    ∃ t, scanTree v virtualPath = .ok (some t) ∧ t.name = node.name ∧ t.Joined ∧
      (r.relative = "/" →
        t.virtualPath = canonical (mountRootForPhysical v.mounts r.physicalName)) := by
  unfold nodeAt at hn
  rw [hr] at hn
  simp only at hn
  unfold scanTree
  rw [hr]
  simp only
  cases hw : (_walk v r.physicalName r.relative false).2 with
  | error e => rw [hw] at hn; simp at hn
  | ok w =>
    rw [hw] at hn
    simp only at hn
    simp only [hn]
    refine ⟨_, rfl, build_name _ _, build_joined _ _, ?_⟩
    intro hrel
    obtain ⟨mp0, hmem⟩ := resolveIn_store_mounted v.mounts virtualPath r hr
    rw [build_virtualPath, hrel, scanBase_root v.mounts r.physicalName mp0 hmem]
    simp

/-- C9 (amended) at the demo instance, for the mount root. -/
theorem scanTree_paths_witness :
    ∃ t, scanTree DemoVFS "res://" = .ok (some t) ∧ t.name = demoTree.name ∧ t.Joined ∧
      (("/" : String) = "/" → t.virtualPath = canonical (mountRootForPhysical DemoVFS.mounts "proj1")) :=
  scanTree_paths DemoVFS "res://" { physicalName := "proj1", relative := "/" } demoTree
    (by decide) rfl

/-! ## Trees: children lists -/

@[simp] theorem Node.name_setChildren (n : Node) (cs : Option (List Node)) :
    (n.setChildren cs).name = n.name := by
  cases n; rfl

@[simp] theorem Node.children_setChildren (n : Node) (cs : Option (List Node)) :
    (n.setChildren cs).children = cs := by
  cases n; rfl

@[simp] theorem Node.meta_setChildren (n : Node) (cs : Option (List Node)) :
    (n.setChildren cs).meta = n.meta := by
  cases n; rfl

theorem Node.setChildren_self (n : Node) (cs : Option (List Node)) (h : n.children = cs) :
    n.setChildren cs = n := by
  cases n
  simp only [Node.children] at h
  subst h
  rfl

theorem findChild_name {part : String} {cs : List Node} {c : Node}
    (h : findChild part cs = some c) : c.name = part := by
  have := List.find?_some h
  simpa using this

theorem findChild_cons (part : String) (c : Node) (cs : List Node) :
    findChild part (c :: cs) = if c.name = part then some c else findChild part cs := by
  by_cases h : c.name = part <;> simp [findChild, List.find?, h]

theorem replaceChild_self {part : String} {cs : List Node} {c : Node}
    (h : findChild part cs = some c) : replaceChild part c cs = cs := by
  induction cs with
  | nil => rfl
  | cons d cs ih =>
    rw [findChild_cons] at h
    by_cases hd : d.name = part
    · simp [hd] at h
      subst h
      simp [replaceChild, hd]
    · simp [hd] at h
      simp [replaceChild, hd, ih h]

theorem findChild_replaceChild_same {part : String} {cs : List Node} {c c' : Node}
    (h : findChild part cs = some c) (hn : c'.name = part) :
    findChild part (replaceChild part c' cs) = some c' := by
  induction cs with
  | nil => simp [findChild] at h
  | cons d cs ih =>
    rw [findChild_cons] at h
    by_cases hd : d.name = part
    · simp [replaceChild, hd, findChild_cons, hn]
    · simp [hd] at h
      simp [replaceChild, hd, findChild_cons, ih h]

theorem findChild_replaceChild_other {part g : String} (cs : List Node) {c' : Node}
    (hn : c'.name = part) (hg : g ≠ part) :
    findChild g (replaceChild part c' cs) = findChild g cs := by
  induction cs with
  | nil => rfl
  | cons d cs ih =>
    by_cases hd : d.name = part
    · have h1 : ¬ part = g := fun e => hg e.symm
      simp [replaceChild, hd, findChild_cons, hn, h1]
    · simp [replaceChild, hd, findChild_cons, ih]

theorem findChild_append_of_some {part : String} {cs : List Node} {c : Node} (extra : List Node)
    (h : findChild part cs = some c) : findChild part (cs ++ extra) = some c := by
  simp only [findChild] at h ⊢
  rw [List.find?_append, h]
  rfl

theorem findChild_append_of_none {part : String} {cs : List Node} (extra : List Node)
    (h : findChild part cs = none) : findChild part (cs ++ extra) = findChild part extra := by
  simp only [findChild] at h ⊢
  rw [List.find?_append, h]
  rfl

theorem findChild_filter_same (name : String) (cs : List Node) :
    findChild name (cs.filter (fun c => c.name ≠ name)) = none := by
  induction cs with
  | nil => rfl
  | cons d cs ih =>
    rw [List.filter_cons]
    by_cases hd : d.name = name
    · rw [if_neg (by simpa using hd)]
      exact ih
    · rw [if_pos (by simpa using hd), findChild_cons, if_neg hd]
      exact ih

theorem findChild_filter_other {name g : String} (cs : List Node) (hg : g ≠ name) :
    findChild g (cs.filter (fun c => c.name ≠ name)) = findChild g cs := by
  induction cs with
  | nil => rfl
  | cons d cs ih =>
    rw [List.filter_cons]
    by_cases hd : d.name = name
    · have h2 : ¬ d.name = g := by rw [hd]; exact fun e => hg e.symm
      rw [if_neg (by simpa using hd), findChild_cons, if_neg h2]
      exact ih
    · rw [if_pos (by simpa using hd), findChild_cons, findChild_cons, ih]

/-! ## Trees: walking -/

theorem walkLoop_name (b : Bool) (parts : List String) :
    ∀ (parent : Option Node) (node : Node), (walkLoop b parent node parts).1.name = node.name := by
  cases parts with
  | nil => intro parent node; rfl
  | cons part rest =>
    intro parent node
    simp only [walkLoop]
    cases hc : node.children with
    | none => rfl
    | some cs =>
      simp only
      cases hf : findChild part cs with
      | some child => simp
      | none =>
        cases b <;> simp

theorem walkLoop_false_fst (parts : List String) :
    ∀ (parent : Option Node) (node : Node), (walkLoop false parent node parts).1 = node := by
  induction parts with
  | nil => intro parent node; rfl
  | cons part rest ih =>
    intro parent node
    simp only [walkLoop]
    cases hc : node.children with
    | none => rfl
    | some cs =>
      simp only
      cases hf : findChild part cs with
      | some child =>
        simp only [ih]
        rw [replaceChild_self hf]
        exact Node.setChildren_self _ _ hc
      | none => simp

/-- The non-creating loop returns the node `reach` computes, and throws only
where `reach` finds none. -/
theorem walkLoop_false_snd (parts : List String) :
    ∀ (parent : Option Node) (node : Node),
      (∃ w, (walkLoop false parent node parts).2 = .ok w ∧ w.node = reach node parts) ∨
      ((walkLoop false parent node parts).2 = .error .typeError ∧ reach node parts = none) := by
  induction parts with
  | nil => intro parent node; exact Or.inl ⟨_, rfl, rfl⟩
  | cons part rest ih =>
    intro parent node
    simp only [walkLoop, reach]
    cases hc : node.children with
    | none => exact Or.inr ⟨rfl, rfl⟩
    | some cs =>
      simp only
      cases hf : findChild part cs with
      | some child => exact ih (some node) child
      | none => exact Or.inl ⟨_, rfl, rfl⟩

theorem reach_append (ps qs : List String) :
    ∀ node : Node, reach node (ps ++ qs) = (reach node ps).bind (fun n => reach n qs) := by
  induction ps with
  | nil => intro node; rfl
  | cons p ps ih =>
    intro node
    simp only [List.cons_append, reach]
    cases hc : node.children with
    | none => rfl
    | some cs =>
      simp only
      cases hf : findChild p cs with
      | none => rfl
      | some child => exact ih child

/-- From a node with an empty `children` array the creating loop never throws:
it returns a node, and that node is then reached along the same segments. -/
theorem walkLoop_create_fresh (parts : List String) :
    ∀ (parent : Option Node) (node : Node), node.children = some [] →
      ∃ w n, (walkLoop true parent node parts).2 = .ok w ∧ w.node = some n ∧
        reach (walkLoop true parent node parts).1 parts = some n := by
  induction parts with
  | nil => intro parent node _; exact ⟨_, node, rfl, rfl, rfl⟩
  | cons part rest ih =>
    intro parent node hc
    have hsyn : (synthesized part (!rest.isEmpty)).children = some [] := rfl
    have hf : findChild part [] = none := rfl
    obtain ⟨w, n, h1, h2, h3⟩ :=
      ih (some (node.setChildren (some ([] ++ [synthesized part (!rest.isEmpty)]))))
        (synthesized part (!rest.isEmpty)) hsyn
    refine ⟨w, n, ?_, h2, ?_⟩
    · simp only [walkLoop, hc, hf, if_true]
      exact h1
    · simp only [walkLoop, hc, hf, if_true, reach, Node.children_setChildren]
      rw [findChild_append_of_none _ hf, findChild_cons,
        if_pos (by rw [walkLoop_name]; rfl)]
      exact h3

/-- The creating loop either returns a node, which is then reached along the
same segments, or throws the `TypeError` of a file on the way and has changed
nothing. -/
theorem walkLoop_create (parts : List String) :
    ∀ (parent : Option Node) (node : Node),
      (∃ w n, (walkLoop true parent node parts).2 = .ok w ∧ w.node = some n ∧
        reach (walkLoop true parent node parts).1 parts = some n) ∨
      ((walkLoop true parent node parts).2 = .error .typeError ∧
        (walkLoop true parent node parts).1 = node) := by
  induction parts with
  | nil => intro parent node; exact Or.inl ⟨_, node, rfl, rfl, rfl⟩
  | cons part rest ih =>
    intro parent node
    cases hc : node.children with
    | none =>
      right
      simp [walkLoop, hc]
    | some cs =>
      cases hf : findChild part cs with
      | some child =>
        rcases ih (some node) child with ⟨w, n, h1, h2, h3⟩ | ⟨h1, h2⟩
        · left
          refine ⟨w, n, ?_, h2, ?_⟩
          · simp only [walkLoop, hc, hf]
            exact h1
          · simp only [walkLoop, hc, hf, reach, Node.children_setChildren]
            rw [findChild_replaceChild_same hf
              (by rw [walkLoop_name]; exact findChild_name hf)]
            exact h3
        · right
          simp only [walkLoop, hc, hf]
          refine ⟨h1, ?_⟩
          rw [h2, replaceChild_self hf]
          exact Node.setChildren_self _ _ hc
      | none =>
        left
        have hsyn : (synthesized part (!rest.isEmpty)).children = some [] := rfl
        obtain ⟨w, n, h1, h2, h3⟩ :=
          walkLoop_create_fresh rest
            (some (node.setChildren (some (cs ++ [synthesized part (!rest.isEmpty)]))))
            (synthesized part (!rest.isEmpty)) hsyn
        refine ⟨w, n, ?_, h2, ?_⟩
        · simp only [walkLoop, hc, hf, if_true]
          exact h1
        · simp only [walkLoop, hc, hf, if_true, reach, Node.children_setChildren]
          rw [findChild_append_of_none _ hf, findChild_cons,
            if_pos (by rw [walkLoop_name]; rfl)]
          exact h3

theorem mutateAt_name (f : Node → Node) (hf : ∀ m, (f m).name = m.name) (parts : List String) :
    ∀ node : Node, (mutateAt f node parts).name = node.name := by
  cases parts with
  | nil => intro node; exact hf node
  | cons part rest =>
    intro node
    simp only [mutateAt]
    cases hc : node.children with
    | none => rfl
    | some cs =>
      simp only
      cases hfc : findChild part cs with
      | none => rfl
      | some child => simp

/-- A write through a reference lands on the node that reference denotes. -/
theorem reach_mutateAt (f : Node → Node) (hf : ∀ m, (f m).name = m.name) (parts : List String) :
    ∀ (node n : Node), reach node parts = some n →
      reach (mutateAt f node parts) parts = some (f n) := by
  induction parts with
  | nil =>
    intro node n h
    simp only [reach, Option.some.injEq] at h
    subst h
    rfl
  | cons part rest ih =>
    intro node n h
    simp only [reach] at h
    cases hc : node.children with
    | none => simp [hc] at h
    | some cs =>
      rw [hc] at h
      simp only at h
      cases hfc : findChild part cs with
      | none => simp [hfc] at h
      | some child =>
        rw [hfc] at h
        simp only at h
        simp only [mutateAt, hc, hfc, reach, Node.children_setChildren]
        rw [findChild_replaceChild_same hfc
          (by rw [mutateAt_name f hf]; exact findChild_name hfc)]
        exact ih child n h

/-! ## Trees: what a mutation leaves in place -/

/-- The creating loop keeps every file node reachable along the segments that
reached it before. -/
theorem reach_walkLoop_create (parts : List String) :
    ∀ (parent : Option Node) (node : Node) (fs : List String) (n : Node),
      reach node fs = some n → n.children = none →
      reach (walkLoop true parent node parts).1 fs = some n := by
  induction parts with
  | nil => intro parent node fs n h _; exact h
  | cons part rest ih =>
    intro parent node fs n h hn
    cases hc : node.children with
    | none =>
      simp only [walkLoop, hc]
      exact h
    | some cs =>
      cases fs with
      | nil =>
        simp only [reach, Option.some.injEq] at h
        subst h
        rw [hc] at hn
        cases hn
      | cons g fs' =>
        simp only [reach, hc] at h
        cases hg : findChild g cs with
        | none => simp [hg] at h
        | some d =>
          rw [hg] at h
          simp only at h
          cases hf : findChild part cs with
          | some child =>
            simp only [walkLoop, hc, hf, reach, Node.children_setChildren]
            by_cases hgp : g = part
            · subst hgp
              rw [hf] at hg
              cases hg
              rw [findChild_replaceChild_same hf
                (by rw [walkLoop_name]; exact findChild_name hf)]
              exact ih _ _ _ _ h hn
            · rw [findChild_replaceChild_other cs
                (by rw [walkLoop_name]; exact findChild_name hf) hgp, hg]
              exact h
          | none =>
            simp only [walkLoop, hc, hf, if_true, reach, Node.children_setChildren]
            rw [findChild_append_of_some _ hg]
            exact h

/-- A write through a reference keeps a file node reachable along `fs` when
the write itself keeps names and keeps that node reachable from the written
node along what is left of `fs`. -/
theorem reach_mutateAt_frame (f : Node → Node) (hname : ∀ m, (f m).name = m.name)
    (n : Node) (hn : n.children = none) (parts : List String) :
    ∀ (node : Node) (fs : List String), reach node fs = some n →
      (∀ (m : Node) (q : List String), fs = parts ++ q → reach m q = some n →
        reach (f m) q = some n) →
      reach (mutateAt f node parts) fs = some n := by
  induction parts with
  | nil =>
    intro node fs h hf
    exact hf node fs rfl h
  | cons part rest ih =>
    intro node fs h hf
    cases hc : node.children with
    | none =>
      simp only [mutateAt, hc]
      exact h
    | some cs =>
      cases hfc : findChild part cs with
      | none =>
        simp only [mutateAt, hc, hfc]
        exact h
      | some child =>
        cases fs with
        | nil =>
          simp only [reach, Option.some.injEq] at h
          subst h
          rw [hc] at hn
          cases hn
        | cons g fs' =>
          simp only [reach, hc] at h
          cases hg : findChild g cs with
          | none => simp [hg] at h
          | some d =>
            rw [hg] at h
            simp only at h
            simp only [mutateAt, hc, hfc, reach, Node.children_setChildren]
            by_cases hgp : g = part
            · subst hgp
              rw [hfc] at hg
              cases hg
              rw [findChild_replaceChild_same hfc
                (by rw [mutateAt_name f hname]; exact findChild_name hfc)]
              refine ih _ _ h ?_
              intro m q hq hm
              exact hf m q (by rw [hq]; rfl) hm
            · rw [findChild_replaceChild_other cs
                (by rw [mutateAt_name f hname]; exact findChild_name hfc) hgp, hg]
              exact h

theorem pushChild_name (child m : Node) : (pushChild child m).name = m.name := by
  simp [pushChild]

theorem removeChildren_name (name : String) (m : Node) : (removeChildren name m).name = m.name := by
  simp [removeChildren]

/-- A `push` on a node keeps every file node below it where it was. -/
theorem reach_pushChild (child m n : Node) (q : List String) (hn : n.children = none)
    (h : reach m q = some n) : reach (pushChild child m) q = some n := by
  cases q with
  | nil =>
    simp only [reach, Option.some.injEq] at h
    subst h
    simp only [pushChild, hn, Option.map_none', reach]
    rw [Node.setChildren_self _ _ hn]
  | cons g q' =>
    simp only [reach] at h
    cases hc : m.children with
    | none => simp [hc] at h
    | some cs =>
      rw [hc] at h
      simp only at h
      cases hg : findChild g cs with
      | none => simp [hg] at h
      | some d =>
        rw [hg] at h
        simp only at h
        simp only [pushChild, hc, Option.map_some', reach, Node.children_setChildren]
        rw [findChild_append_of_some _ hg]
        exact h

/-- Removing the children called `name` keeps a file node reachable along `q`
unless `q` starts with `name`. -/
theorem reach_removeChildren (name : String) (m n : Node) (q : List String)
    (hn : n.children = none) (hq : ∀ q', q ≠ name :: q')
    (h : reach m q = some n) : reach (removeChildren name m) q = some n := by
  cases q with
  | nil =>
    simp only [reach, Option.some.injEq] at h
    subst h
    simp only [removeChildren, hn, Option.map_none', reach]
    rw [Node.setChildren_self _ _ hn]
  | cons g q' =>
    have hg' : g ≠ name := fun e => hq q' (by rw [e])
    simp only [reach] at h
    cases hc : m.children with
    | none => simp [hc] at h
    | some cs =>
      rw [hc] at h
      simp only at h
      simp only [removeChildren, hc, Option.map_some', reach, Node.children_setChildren]
      rw [findChild_filter_other cs hg']
      exact h

/-! ## Strings: segments -/

theorem splitSlash_ne_nil (cs : List Char) : splitSlash cs ≠ [] := by
  cases cs with
  | nil => simp [splitSlash]
  | cons c cs =>
    simp only [splitSlash]
    split
    · simp
    · split <;> simp

theorem splitSlash_append_slash (a b : List Char) :
    splitSlash (a ++ '/' :: b) = splitSlash a ++ splitSlash b := by
  induction a with
  | nil => simp [splitSlash]
  | cons c a ih =>
    simp only [List.cons_append, splitSlash]
    by_cases hc : c = '/'
    · simp [hc, ih]
    · simp only [hc, if_false]
      cases hs : splitSlash a with
      | nil => exact absurd hs (splitSlash_ne_nil a)
      | cons h t =>
        have ih' : splitSlash (a.append ('/' :: b)) = (h :: t) ++ splitSlash b := by
          rw [← hs]; exact ih
        rw [ih']
        rfl

theorem splitSlash_of_no_slash (x : List Char) (hx : ∀ c ∈ x, c ≠ '/') : splitSlash x = [x] := by
  induction x with
  | nil => rfl
  | cons c x ih =>
    have hc : c ≠ '/' := hx c (List.mem_cons_self _ _)
    have hx' : ∀ c ∈ x, c ≠ '/' := fun d hd => hx d (List.mem_cons_of_mem _ hd)
    simp [splitSlash, hc, ih hx']

theorem splitSlash_no_slash (cs : List Char) : ∀ p ∈ splitSlash cs, ∀ c ∈ p, c ≠ '/' := by
  induction cs with
  | nil => simp [splitSlash]
  | cons c cs ih =>
    simp only [splitSlash]
    by_cases hc : c = '/'
    · simp only [hc, if_true]
      intro p hp
      rcases List.mem_cons.1 hp with rfl | hp
      · simp
      · exact ih p hp
    · simp only [hc, if_false]
      cases hs : splitSlash cs with
      | nil => exact absurd hs (splitSlash_ne_nil cs)
      | cons h t =>
        rw [hs] at ih
        intro p hp
        rcases List.mem_cons.1 hp with rfl | hp
        · intro d hd
          rcases List.mem_cons.1 hd with rfl | hd
          · exact hc
          · exact ih h (List.mem_cons_self _ _) d hd
        · exact ih p (List.mem_cons_of_mem _ hp)

theorem segments_append_slash (a b : String) :
    segments (a ++ "/" ++ b) = segments a ++ segments b := by
  have hd : (a ++ "/" ++ b).data = a.data ++ '/' :: b.data := by
    simp [String.data_append]
  simp only [segments, hd, splitSlash_append_slash, List.filter_append, List.map_append]

theorem segments_empty : segments "" = [] := by decide

theorem segments_slash : segments "/" = [] := by decide

/-- A name without a slash is its own only segment, and no segment when
empty. -/
theorem segments_of_no_slash (x : String) (hx : ∀ c ∈ x.data, c ≠ '/') :
    segments x = if x = "" then [] else [x] := by
  simp only [segments, splitSlash_of_no_slash x.data hx]
  by_cases he : x = ""
  · subst he
    rfl
  · have hd : x.data ≠ [] := fun h => he (String.ext h)
    simp [List.filter, hd, he]

/-- Every segment is non-empty and has no slash. -/
theorem segments_good (s : String) : ∀ p ∈ segments s, p ≠ "" ∧ ∀ c ∈ p.data, c ≠ '/' := by
  intro p hp
  simp only [segments, List.mem_map, List.mem_filter] at hp
  obtain ⟨q, ⟨hq, hne⟩, rfl⟩ := hp
  refine ⟨?_, splitSlash_no_slash _ q hq⟩
  intro h
  have := congrArg String.data h
  simp at hne
  exact hne this

theorem walkParts_eq (relative : String) : walkParts relative = segments relative := by
  unfold walkParts
  by_cases h : relative = "" ∨ relative = "/"
  · rw [if_pos h]
    rcases h with h | h <;> subst h
    · exact segments_empty.symm
    · exact segments_slash.symm
  · rw [if_neg h]

/-- Joining segments with slashes and splitting again gives them back. -/
theorem segments_joinSlash (ps : List String)
    (h : ∀ p ∈ ps, p ≠ "" ∧ ∀ c ∈ p.data, c ≠ '/') : segments (joinSlash ps) = ps := by
  induction ps with
  | nil => exact segments_empty
  | cons p ps ih =>
    have hp := h p (List.mem_cons_self _ _)
    have hps : ∀ q ∈ ps, q ≠ "" ∧ ∀ c ∈ q.data, c ≠ '/' :=
      fun q hq => h q (List.mem_cons_of_mem _ hq)
    cases ps with
    | nil =>
      simp only [joinSlash]
      rw [segments_of_no_slash p hp.2, if_neg hp.1]
    | cons q rest =>
      simp only [joinSlash]
      rw [segments_append_slash, segments_of_no_slash p hp.2, if_neg hp.1, ih hps]
      rfl

theorem joinSlash_eq_empty (ps : List String) (h : ∀ p ∈ ps, p ≠ "") :
    joinSlash ps = "" ↔ ps = [] := by
  constructor
  · intro hj
    cases ps with
    | nil => rfl
    | cons p ps =>
      exfalso
      have hp := h p (List.mem_cons_self _ _)
      cases ps with
      | nil =>
        simp only [joinSlash] at hj
        exact hp hj
      | cons q rest =>
        simp only [joinSlash] at hj
        have := congrArg String.data hj
        simp [String.data_append] at this
  · intro hj
    subst hj
    rfl

/-! ## States -/

theorem mapSet_self {κ υ : Type} [DecidableEq κ] (m : List (κ × υ)) (k : κ) (x : υ)
    (h : mapGet m k = some x) : mapSet m k x = m := by
  induction m with
  | nil => simp [mapGet] at h
  | cons e m ih =>
    obtain ⟨k', x'⟩ := e
    by_cases hk : k' = k
    · simp [mapGet, hk] at h
      simp [mapSet, hk, h]
    · simp [mapGet, hk] at h
      simp [mapSet, hk, ih h]

/-- The non-creating `_walk` leaves the state as it was. -/
theorem walk_false_state (v : State) (physicalName relative : String) :
    (_walk v physicalName relative false).1 = v := by
  unfold _walk
  cases hg : mapGet v.physicalStores physicalName with
  | none => rfl
  | some root =>
    simp only
    split
    · rfl
    · simp only [walkLoop_false_fst]
      rw [mapSet_self _ _ _ hg]

/-- The node a virtual path denotes, in terms of `reach`. -/
theorem nodeAt_eq (v : State) (virtualPath : String) :
    nodeAt v virtualPath =
      match resolve v virtualPath with
      | .error _ => none
      | .ok r =>
        match mapGet v.physicalStores r.physicalName with
        | none => none
        | some root => reach root (segments r.relative) := by
  unfold nodeAt
  cases hr : resolve v virtualPath with
  | error e => rfl
  | ok r =>
    simp only
    unfold _walk
    cases hg : mapGet v.physicalStores r.physicalName with
    | none => rfl
    | some root =>
      simp only
      by_cases h : r.relative = "" ∨ r.relative = "/"
      · rw [if_pos h]
        have : segments r.relative = [] := by
          rw [← walkParts_eq, walkParts, if_pos h]
        rw [this]
        rfl
      · rw [if_neg h]
        simp only
        rcases walkLoop_false_snd (segments r.relative) none root with ⟨w, h1, h2⟩ | ⟨h1, h2⟩
        · rw [h1]
          exact h2
        · rw [h1, h2]

theorem exists_eq (v : State) (virtualPath : String) :
    «exists» v virtualPath = (nodeAt v virtualPath).isSome := by
  unfold «exists» nodeAt
  cases resolve v virtualPath with
  | error e => rfl
  | ok r =>
    simp only
    cases (_walk v r.physicalName r.relative false).2 <;> rfl

theorem keepsFile_refl (v : State) (k : String) (fs : List String) : KeepsFile v v k fs :=
  ⟨rfl, fun R _ hR hn _ => ⟨R, hR, hn⟩⟩

theorem keepsFile_trans {v v1 v2 : State} {k : String} {fs : List String}
    (h1 : KeepsFile v v1 k fs) (h2 : KeepsFile v1 v2 k fs) : KeepsFile v v2 k fs := by
  refine ⟨h2.1.trans h1.1, ?_⟩
  intro R n hR hn hc
  obtain ⟨T, hT, hTn⟩ := h1.2 R n hR hn hc
  exact h2.2 T n hT hTn hc

/-- A kept file is still what its virtual path denotes. -/
theorem nodeAt_of_keepsFile {v v2 : State} {virtualPath : String} {r : Resolved} {n : Node}
    (hr : resolve v virtualPath = .ok r)
    (hk : KeepsFile v v2 r.physicalName (segments r.relative))
    (hn : nodeAt v virtualPath = some n) (hc : n.children = none) :
    nodeAt v2 virtualPath = some n := by
  have hr2 : resolve v2 virtualPath = .ok r := by
    unfold resolve at hr ⊢
    rw [hk.1]
    exact hr
  rw [nodeAt_eq, hr] at hn
  rw [nodeAt_eq, hr2]
  simp only at hn ⊢
  cases hg : mapGet v.physicalStores r.physicalName with
  | none => rw [hg] at hn; cases hn
  | some R =>
    rw [hg] at hn
    obtain ⟨T, hT, hTn⟩ := hk.2 R n hg hn hc
    rw [hT]
    exact hTn

/-- The state after `_walk`: the mount table is the same, and only the store
walked has a new tree, the one the loop returns. -/
theorem walk_state (v : State) (physicalName relative : String) (b : Bool) :
    (_walk v physicalName relative b).1 = v ∨
    ∃ root, mapGet v.physicalStores physicalName = some root ∧
      (_walk v physicalName relative b).1 =
        State.mk v.mounts (mapSet v.physicalStores physicalName
            (walkLoop b none root (walkParts relative)).1) ∧
      (_walk v physicalName relative b).2 = (walkLoop b none root (walkParts relative)).2 := by
  unfold _walk
  cases hg : mapGet v.physicalStores physicalName with
  | none => exact Or.inl rfl
  | some root =>
    simp only
    by_cases h : relative = "" ∨ relative = "/"
    · rw [if_pos h]
      exact Or.inl rfl
    · rw [if_neg h]
      right
      refine ⟨root, rfl, ?_, ?_⟩ <;> simp only [walkParts, if_neg h]

theorem keepsFile_walk (v : State) (physicalName relative : String) (k : String)
    (fs : List String) : KeepsFile v (_walk v physicalName relative true).1 k fs := by
  rcases walk_state v physicalName relative true with h | ⟨root, hg, h, _⟩
  · rw [h]
    exact keepsFile_refl v k fs
  · rw [h]
    refine ⟨rfl, ?_⟩
    intro R n hR hn hc
    by_cases hk : k = physicalName
    · subst hk
      rw [hg] at hR
      cases hR
      exact ⟨_, mapGet_mapSet_self _ _ _, reach_walkLoop_create _ _ _ _ _ hn hc⟩
    · exact ⟨R, by simp only; rw [mapGet_mapSet_other _ _ _ _ hk]; exact hR, hn⟩

/-- A write through the reference `_walk` returned keeps the files that the
write keeps below the written node. -/
theorem keepsFile_mutateNode (v : State) (physicalName relative : String) (f : Node → Node)
    (hname : ∀ m, (f m).name = m.name) (k : String) (fs : List String)
    (hf : k = physicalName → ∀ (m n : Node) (q : List String), n.children = none →
      fs = walkParts relative ++ q → reach m q = some n → reach (f m) q = some n) :
    KeepsFile v (mutateNode v physicalName relative f) k fs := by
  unfold mutateNode
  cases hg : mapGet v.physicalStores physicalName with
  | none => exact keepsFile_refl v k fs
  | some root =>
    refine ⟨rfl, ?_⟩
    intro R n hR hn hc
    by_cases hk : k = physicalName
    · subst hk
      rw [hg] at hR
      cases hR
      refine ⟨_, mapGet_mapSet_self _ _ _, ?_⟩
      exact reach_mutateAt_frame f hname n hc _ _ _ hn (fun m q hq hm => hf rfl m n q hc hq hm)
    · exact ⟨R, by simp only; rw [mapGet_mapSet_other _ _ _ _ hk]; exact hR, hn⟩

/-! ## C8: files away from a mutation -/

/-- `createFile` and `createFolder` keep every file of every store, whatever
their outcome. -/
theorem createNode_keeps (v : State) (P : String) (child : Node) (k : String)
    (fs : List String) : KeepsFile v (createNode v P child).1 k fs := by
  unfold createNode
  cases hr : resolve v P with
  | error e => exact keepsFile_refl v k fs
  | ok r =>
    simp only
    have hw := keepsFile_walk v r.physicalName r.relative k fs
    rcases hwalk : _walk v r.physicalName r.relative true with ⟨v1, _ | ⟨wp, _ | node⟩⟩
    · rw [hwalk] at hw; exact hw
    · rw [hwalk] at hw; exact hw
    · rw [hwalk] at hw
      simp only
      cases hc : node.children with
      | none => exact hw
      | some cs =>
        refine keepsFile_trans hw ?_
        exact keepsFile_mutateNode v1 _ _ _ (pushChild_name child) k fs
          (fun _ m n q hn _ hm => reach_pushChild child m n q hn hm)

theorem getLast?_segments {parts : List String} {name : String}
    (h : parts.getLast? = some name) : parts = parts.dropLast ++ [name] :=
  (List.dropLast_append_getLast? name h).symm

theorem walkParts_parent (relative : String) :
    walkParts (joinSlash (segments relative).dropLast) = (segments relative).dropLast := by
  rw [walkParts_eq]
  exact segments_joinSlash _
    (fun p hp => segments_good relative p (List.dropLast_subset _ hp))

/-- `delete` keeps the files at `fs` in store `k`, whatever its outcome, unless
its path resolves into store `k` with segments that are a beginning of `fs`. -/
theorem delete_keeps (v : State) (T : String) (k : String) (fs : List String)
    (h : ∀ r, resolve v T = .ok r → ¬ (r.physicalName = k ∧ segments r.relative <+: fs)) :
    KeepsFile v (delete v T).1 k fs := by
  unfold delete
  cases hr : resolve v T with
  | error e => exact keepsFile_refl v k fs
  | ok r =>
    simp only
    cases hl : (segments r.relative).getLast? with
    | none => exact keepsFile_refl v k fs
    | some name =>
      simp only
      have hst := walk_false_state v r.physicalName (joinSlash (segments r.relative).dropLast)
      rcases hwalk : _walk v r.physicalName (joinSlash (segments r.relative).dropLast) false
        with ⟨v1, _ | ⟨wp, _ | node⟩⟩
      · rw [hwalk] at hst; simp only at hst; subst hst; exact keepsFile_refl _ k fs
      · rw [hwalk] at hst; simp only at hst; subst hst; exact keepsFile_refl _ k fs
      · rw [hwalk] at hst
        simp only at hst
        subst hst
        simp only
        cases hc : node.children with
        | none => exact keepsFile_refl _ k fs
        | some cs =>
          refine keepsFile_mutateNode v1 _ _ _ (removeChildren_name name) k fs ?_
          intro hk m n q hn hq hm
          refine reach_removeChildren name m n q hn ?_ hm
          intro q' hq'
          apply h r hr
          refine ⟨hk.symm, ?_⟩
          rw [walkParts_parent, hq'] at hq
          rw [getLast?_segments hl, hq]
          exact ⟨q', by simp⟩

theorem fileWithUID_of_keeps {v v2 : State} {F u : String}
    (hk : ∀ r, resolve v F = .ok r → KeepsFile v v2 r.physicalName (segments r.relative))
    (h : fileWithUID v F u) : fileWithUID v2 F u := by
  obtain ⟨n, hn, hc, hm⟩ := h
  cases hr : resolve v F with
  | error e =>
    rw [nodeAt_eq, hr] at hn
    cases hn
  | ok r => exact ⟨n, nodeAt_of_keepsFile hr (hk r hr) hn hc, hc, hm⟩

/-- C8: for every state in which a file with UID `u` is at the virtual path
`F`, after any `createFile`, any `createFolder`, and any `delete` whose path
does not denote `F` or a node above `F` (it does not resolve into the store of
`F` with segments that are a beginning of the segments of `F`), completed or
thrown, a file with UID `u` is still at `F`. -/
theorem uid_stable (v : State) (F u : String) (hF : fileWithUID v F u) :
    (∀ P name uid, fileWithUID (createFile v P name uid).1 F u) ∧
    (∀ P name, fileWithUID (createFolder v P name).1 F u) ∧
    (∀ T, (∀ rT rF, resolve v T = .ok rT → resolve v F = .ok rF →
        ¬ (rT.physicalName = rF.physicalName ∧ segments rT.relative <+: segments rF.relative)) →
      fileWithUID (delete v T).1 F u) := by
  refine ⟨?_, ?_, ?_⟩
  · intro P name uid
    exact fileWithUID_of_keeps (fun r _ => createNode_keeps v P _ _ _) hF
  · intro P name
    exact fileWithUID_of_keeps (fun r _ => createNode_keeps v P _ _ _) hF
  · intro T hT
    exact fileWithUID_of_keeps
      (fun r hr => delete_keeps v T _ _ (fun rT hrT => hT rT r hrT hr)) hF

/-- C8 at the demo instance: `tree.fbx` keeps its UID `mesh1` through a
`createFile` next to it, a `createFolder` at the root and the `delete` of the
`scenes` directory. -/
theorem uid_stable_witness :
    fileWithUID DemoVFS "res://assets/models/tree.fbx" "mesh1" ∧
    fileWithUID (createFile DemoVFS "res://assets/models" "oak.fbx" "u2").1
      "res://assets/models/tree.fbx" "mesh1" ∧
    fileWithUID (createFolder DemoVFS "res://" "tmp").1
      "res://assets/models/tree.fbx" "mesh1" ∧
    fileWithUID (delete DemoVFS "res://scenes").1 "res://assets/models/tree.fbx" "mesh1" := by
  have hF : fileWithUID DemoVFS "res://assets/models/tree.fbx" "mesh1" :=
    ⟨Node.mk "tree.fbx" none false (some { uid := "mesh1" }), rfl, rfl, rfl⟩
  refine ⟨hF, (uid_stable DemoVFS _ _ hF).1 _ _ _, (uid_stable DemoVFS _ _ hF).2.1 _ _,
    (uid_stable DemoVFS _ _ hF).2.2 _ ?_⟩
  intro rT rF hT hrF
  have e1 : resolve DemoVFS "res://scenes" = .ok ⟨"proj1", "scenes"⟩ := by decide
  have e2 : resolve DemoVFS "res://assets/models/tree.fbx"
      = .ok ⟨"proj1", "assets/models/tree.fbx"⟩ := by decide
  rw [e1] at hT
  rw [e2] at hrF
  cases hT
  cases hrF
  decide

/-! ## C4: delete -/

/-- What a non-creating `_walk` that returns a node tells about the store. -/
theorem walk_false_node {v v1 : State} {physicalName relative : String} {wp : Option Node}
    {node : Node} (h : _walk v physicalName relative false = (v1, .ok ⟨wp, some node⟩)) :
    ∃ root, mapGet v.physicalStores physicalName = some root ∧
      reach root (walkParts relative) = some node := by
  unfold _walk at h
  cases hg : mapGet v.physicalStores physicalName with
  | none => rw [hg] at h; simp at h
  | some root =>
    rw [hg] at h
    simp only at h
    refine ⟨root, rfl, ?_⟩
    by_cases hrel : relative = "" ∨ relative = "/"
    · rw [if_pos hrel] at h
      simp only [Prod.mk.injEq, Except.ok.injEq, WalkResult.mk.injEq, Option.some.injEq] at h
      rw [walkParts, if_pos hrel, ← h.2.2]
      rfl
    · rw [if_neg hrel] at h
      simp only [Prod.mk.injEq] at h
      rw [walkParts, if_neg hrel]
      rcases walkLoop_false_snd (segments relative) none root with ⟨w, h1, h2⟩ | ⟨h1, _⟩
      · rw [h.2] at h1
        cases h1
        exact h2.symm
      · rw [h.2] at h1
        cases h1

theorem mutateNode_get {v : State} {physicalName : String} {root : Node} (relative : String)
    (f : Node → Node) (hg : mapGet v.physicalStores physicalName = some root) :
    (mutateNode v physicalName relative f).mounts = v.mounts ∧
    mapGet (mutateNode v physicalName relative f).physicalStores physicalName
      = some (mutateAt f root (walkParts relative)) := by
  unfold mutateNode
  rw [hg]
  exact ⟨rfl, mapGet_mapSet_self _ _ _⟩

/-- After a `delete` that completed, nothing is reached in the store along the
segments of the deleted path, nor along any continuation of them. -/
theorem delete_ok {v v2 : State} {T : String} (h : delete v T = (v2, .ok ())) :
    ∃ r R, resolve v T = .ok r ∧ v2.mounts = v.mounts ∧
      mapGet v2.physicalStores r.physicalName = some R ∧
      ∀ q, reach R (segments r.relative ++ q) = none := by
  unfold delete at h
  cases hr : resolve v T with
  | error e => rw [hr] at h; simp at h
  | ok r =>
    rw [hr] at h
    simp only at h
    cases hl : (segments r.relative).getLast? with
    | none => rw [hl] at h; simp at h
    | some name =>
      rw [hl] at h
      simp only at h
      have hst := walk_false_state v r.physicalName (joinSlash (segments r.relative).dropLast)
      rcases hwalk : _walk v r.physicalName (joinSlash (segments r.relative).dropLast) false
        with ⟨v1, _ | ⟨wp, _ | node⟩⟩
      · rw [hwalk] at h; simp at h
      · rw [hwalk] at h; simp at h
      · rw [hwalk] at h hst
        simp only at h hst
        subst hst
        obtain ⟨root, hg, hreach⟩ := walk_false_node hwalk
        cases hc : node.children with
        | none => rw [hc] at h; simp at h
        | some cs =>
          rw [hc] at h
          simp only [Prod.mk.injEq, and_true] at h
          subst h
          obtain ⟨hm, hget⟩ := mutateNode_get (joinSlash (segments r.relative).dropLast)
            (removeChildren name) hg
          refine ⟨r, _, rfl, hm, hget, ?_⟩
          intro q
          have hreach2 := reach_mutateAt (removeChildren name) (removeChildren_name name) _ _ _
            hreach
          rw [walkParts_parent] at hreach2 ⊢
          have hparts : segments r.relative ++ q
              = (segments r.relative).dropLast ++ (name :: q) := by
            conv_lhs => rw [getLast?_segments hl]
            simp
          rw [hparts, reach_append, hreach2]
          simp only [Option.some_bind, reach, removeChildren, hc, Option.map_some',
            Node.children_setChildren]
          rw [findChild_filter_same]

theorem resolve_of_mounts {v v2 : State} (h : v2.mounts = v.mounts) (path : String) :
    resolve v2 path = resolve v path := by
  unfold resolve
  rw [h]

/-- C4 (as stated, refuted): with the mount points `res:///d/f` and `res://`,
in this order, on one store, `createFolder("res://", "d")`,
`createFile("res:///d", "f")` and `delete("res:///d")` all complete, and then
`exists("res:///d/f")` is true: that path is the first mount point without
its trailing slash, the root of the store. -/
theorem delete_subtree_counterexample :
    ∃ v0 v1 v2 v3 : State,
      v0 = (mount (mount (createPhysicalStore State.new "s" none) "res:///d/f" "s").1
        "res://" "s").1 ∧
      createFolder v0 "res://" "d" = (v1, .ok ()) ∧
      createFile v1 ("res://" ++ "/" ++ "d") "f" "u" = (v2, .ok ()) ∧
      delete v2 ("res://" ++ "/" ++ "d") = (v3, .ok ()) ∧
      «exists» v3 ("res://" ++ "/" ++ "d" ++ "/" ++ "f") = true :=
  ⟨_, _, _, _, rfl, rfl, rfl, rfl, by decide⟩

/-- C4 (amended): for every state, path `P` and names `d`, `f` such that
`P/d/f` resolves into the store of `P/d` with the relative path of `P/d`
followed by `/f` (as it does when no mount point placed earlier matches it),
after `createFolder(P, d)`, `createFile(P + "/" + d, f)` and
`delete(P + "/" + d)` have all completed, `exists(P + "/" + d)` and
`exists(P + "/" + d + "/" + f)` are both false, whatever children called `d`
the node of `P` had before. -/
theorem delete_subtree (v v1 v2 v3 : State) (P d f uid : String)
    (hsame : ∀ r, resolve v (P ++ "/" ++ d) = .ok r →
      resolve v (P ++ "/" ++ d ++ "/" ++ f)
        = .ok { physicalName := r.physicalName, relative := r.relative ++ "/" ++ f })
    (h1 : createFolder v P d = (v1, .ok ()))
    (h2 : createFile v1 (P ++ "/" ++ d) f uid = (v2, .ok ()))
    (h3 : delete v2 (P ++ "/" ++ d) = (v3, .ok ())) :
    «exists» v3 (P ++ "/" ++ d) = false ∧ «exists» v3 (P ++ "/" ++ d ++ "/" ++ f) = false := by
  have m1 : v1.mounts = v.mounts := by
    have := (createNode_keeps v P (newFolder d) "" []).1
    rw [createFolder] at h1
    rw [h1] at this
    exact this
  have m2 : v2.mounts = v1.mounts := by
    have := (createNode_keeps v1 (P ++ "/" ++ d) (newFile f uid) "" []).1
    rw [createFile] at h2
    rw [h2] at this
    exact this
  obtain ⟨r, R, hr, m3, hget, hnone⟩ := delete_ok h3
  have hr3 : resolve v3 (P ++ "/" ++ d) = .ok r := by
    rw [resolve_of_mounts m3]; exact hr
  have hr0 : resolve v (P ++ "/" ++ d) = .ok r := by
    rw [← resolve_of_mounts m1, ← resolve_of_mounts m2]; exact hr
  have hrf : resolve v3 (P ++ "/" ++ d ++ "/" ++ f)
      = .ok { physicalName := r.physicalName, relative := r.relative ++ "/" ++ f } := by
    rw [resolve_of_mounts m3, resolve_of_mounts m2, resolve_of_mounts m1]
    exact hsame r hr0
  constructor
  · rw [exists_eq, nodeAt_eq, hr3]
    simp only [hget]
    have := hnone []
    rw [List.append_nil] at this
    rw [this]
    rfl
  · rw [exists_eq, nodeAt_eq, hrf]
    simp only [hget, segments_append_slash]
    rw [hnone]
    rfl

/-- C4 (amended) at the demo instance, where the root already has a child
called `assets`: the folder, the file and both older `assets` subtrees are
gone. -/
theorem delete_subtree_witness :
    «exists» (delete (createFile (createFolder DemoVFS "res://" "assets").1
        ("res://" ++ "/" ++ "assets") "f" "u").1 ("res://" ++ "/" ++ "assets")).1
      ("res://" ++ "/" ++ "assets") = false ∧
    «exists» (delete (createFile (createFolder DemoVFS "res://" "assets").1
        ("res://" ++ "/" ++ "assets") "f" "u").1 ("res://" ++ "/" ++ "assets")).1
      ("res://" ++ "/" ++ "assets" ++ "/" ++ "f") = false :=
  delete_subtree DemoVFS _ _ _ "res://" "assets" "f" "u"
    (by
      intro r hr
      have e : resolve DemoVFS ("res://" ++ "/" ++ "assets") = .ok ⟨"proj1", "/assets"⟩ := by
        decide
      rw [e] at hr
      cases hr
      decide)
    rfl rfl rfl

/-! ## Strings: a path and a child of it against one mount point -/

theorem endsWithSlash_iff (s : String) : endsWithSlash s = true ↔ ∃ l, s.data = l ++ ['/'] := by
  simp only [endsWithSlash, beq_iff_eq]
  exact List.getLast?_eq_some_iff

theorem startsWith_iff (s p : String) : startsWith s p = true ↔ ∃ t : String, s = p ++ t := by
  simp only [startsWith, List.isPrefixOf_iff_prefix]
  constructor
  · rintro ⟨t, ht⟩
    exact ⟨⟨t⟩, String.ext (by rw [String.data_append]; exact ht.symm)⟩
  · rintro ⟨t, rfl⟩
    exact ⟨t.data, by rw [String.data_append]⟩

theorem mountMatches_iff (path mp : String) :
    mountMatches path mp = true ↔ path = sliceInit mp ∨ startsWith path mp = true := by
  simp [mountMatches]

theorem append_slash_ne_empty (t x : String) : t ++ "/" ++ x ≠ "" := by
  intro h
  have := congrArg String.data h
  simp [String.data_append] at this

theorem segments_default (t : String) : segments (if t = "" then "/" else t) = segments t := by
  by_cases h : t = ""
  · subst h
    rfl
  · rw [if_neg h]

/-- A mount point that matches `P` matches `P/x` too, and the relative path of
`P/x` has the segments of that of `P` followed by those of `x`. -/
theorem resolved_child (P x mp pn : String) (hmp : endsWithSlash mp = true)
    (hm : mountMatches P mp = true) :
    mountMatches (P ++ "/" ++ x) mp = true ∧
    (resolved (P ++ "/" ++ x) mp pn).physicalName = pn ∧
    segments (resolved (P ++ "/" ++ x) mp pn).relative
      = segments (resolved P mp pn).relative ++ segments x := by
  by_cases hs : startsWith P mp = true
  · obtain ⟨t, rfl⟩ := (startsWith_iff _ _).1 hs
    have e : mp ++ t ++ "/" ++ x = mp ++ (t ++ "/" ++ x) := by
      simp only [String.append_assoc]
    rw [e]
    refine ⟨mountMatches_append _ _, ?_, ?_⟩
    · rw [resolved_append]
    · rw [resolved_append, resolved_append, if_neg (append_slash_ne_empty t x)]
      simp only
      rw [segments_append_slash, segments_default]
  · rcases (mountMatches_iff _ _).1 hm with h | h
    · obtain ⟨l, hl⟩ := (endsWithSlash_iff mp).1 hmp
      have hP : P.data = l := by
        rw [h, sliceInit, hl, List.dropLast_concat]
      have hmpP : mp = P ++ "/" := by
        apply String.ext
        rw [String.data_append, hP, hl]
      have hrel : (resolved P mp pn).relative = "/" := by
        have : sliceFrom P mp.length = "" := by
          apply String.ext
          simp only [sliceFrom, String.length, hl, hP]
          exact List.drop_eq_nil_of_le (by simp)
        simp [resolved, this]
      rw [hrel, ← hmpP]
      refine ⟨mountMatches_append _ _, ?_, ?_⟩
      · rw [resolved_append]
      · rw [resolved_append]
        simp only
        rw [segments_default, segments_slash]
        rfl
    · exact absurd h hs

/-- A mount point that does not match `P` matches `P/x`, for a name `x` without
a slash, only as the path of its own root. -/
theorem resolved_child_other (P x mp pn : String) (hmp : endsWithSlash mp = true)
    (hx : ∀ c ∈ x.data, c ≠ '/') (hP : mountMatches P mp = false)
    (hm : mountMatches (P ++ "/" ++ x) mp = true) :
    resolved (P ++ "/" ++ x) mp pn = { physicalName := pn, relative := "/" } := by
  obtain ⟨l, hl⟩ := (endsWithSlash_iff mp).1 hmp
  have hPne : ¬ (P = sliceInit mp ∨ startsWith P mp = true) := by
    rw [← mountMatches_iff, hP]
    simp
  have hdata : (P ++ "/" ++ x).data = P.data ++ ['/'] ++ x.data := by
    simp [String.data_append]
  rcases (mountMatches_iff _ _).1 hm with h | h
  · have : sliceFrom (P ++ "/" ++ x) mp.length = "" := by
      apply String.ext
      simp only [sliceFrom, String.length]
      apply List.drop_eq_nil_of_le
      rw [h, sliceInit, hl]
      simp
    simp [resolved, this]
  · exfalso
    simp only [startsWith, List.isPrefixOf_iff_prefix, hdata] at h
    by_cases hlen : mp.data.length ≤ P.data.length
    · have hpre : mp.data <+: P.data :=
        List.prefix_of_prefix_length_le h ⟨['/'] ++ x.data, by simp⟩ hlen
      apply hPne
      right
      simp only [startsWith, List.isPrefixOf_iff_prefix]
      exact hpre
    · have hpre : P.data ++ ['/'] <+: mp.data :=
        List.prefix_of_prefix_length_le ⟨x.data, rfl⟩ h
          (by rw [List.length_append, List.length_singleton]; omega)
      obtain ⟨s, hs⟩ := hpre
      rw [← hs, List.prefix_append_right_inj] at h
      cases s with
      | nil =>
        apply hPne
        left
        apply String.ext
        rw [sliceInit, ← hs]
        simp
      | cons c s =>
        have hlast : mp.data.getLast? = some '/' := by rw [hl]; simp
        rw [← hs, List.getLast?_append] at hlast
        have hsome : (c :: s).getLast? = some '/' := by
          cases hg : (c :: s).getLast? with
          | none => simp at hg
          | some d =>
            rw [hg] at hlast
            simpa using hlast
        have hmem : '/' ∈ c :: s := List.mem_of_mem_getLast? hsome
        exact hx '/' (h.subset hmem) rfl

/-- The resolution of `P/x`, for a name `x` without a slash, when `P`
resolves and all mount points end with a slash: through the entry of `P`, the
relative path extended by the segments of `x`; or to the root of a store
whose mount point without its trailing slash is `P/x`. -/
theorem resolveIn_child (m : List (String × String)) (P x : String) (r : Resolved)
    (hm : ∀ e ∈ m, endsWithSlash e.1 = true) (hx : ∀ c ∈ x.data, c ≠ '/')
    (hr : resolveIn m P = .ok r) :
    (∃ rel, resolveIn m (P ++ "/" ++ x) = .ok { physicalName := r.physicalName, relative := rel } ∧
      segments rel = segments r.relative ++ segments x) ∨
    (∃ e ∈ m, resolveIn m (P ++ "/" ++ x) = .ok { physicalName := e.2, relative := "/" }) := by
  induction m with
  | nil => simp [resolveIn] at hr
  | cons e m ih =>
    obtain ⟨mp, pn⟩ := e
    have hmp : endsWithSlash mp = true := hm (mp, pn) (List.mem_cons_self _ _)
    have hm' : ∀ e ∈ m, endsWithSlash e.1 = true := fun e he => hm e (List.mem_cons_of_mem _ he)
    by_cases hP : mountMatches P mp = true
    · left
      simp only [resolveIn, hP, if_true, Except.ok.injEq] at hr
      subst hr
      obtain ⟨h1, h2, h3⟩ := resolved_child P x mp pn hmp hP
      refine ⟨(resolved (P ++ "/" ++ x) mp pn).relative, ?_, h3⟩
      simp only [resolveIn, h1, if_true]
      rfl
    · simp only [resolveIn, hP] at hr
      by_cases hPx : mountMatches (P ++ "/" ++ x) mp = true
      · right
        refine ⟨(mp, pn), List.mem_cons_self _ _, ?_⟩
        simp only [resolveIn, hPx, if_true]
        rw [resolved_child_other P x mp pn hmp hx (by simpa using hP) hPx]
      · rcases ih hm' hr with ⟨rel, h1, h2⟩ | ⟨e, he, h1⟩
        · left
          exact ⟨rel, by simp only [resolveIn, hPx]; exact h1, h2⟩
        · right
          exact ⟨e, List.mem_cons_of_mem _ he, by simp only [resolveIn, hPx]; exact h1⟩

/-! ## C3: createFile, then list and exists -/

theorem mapHas_mapSet {κ υ : Type} [DecidableEq κ] (m : List (κ × υ)) (k k0 : κ) (x : υ)
    (h : mapHas m k0 = true) : mapHas (mapSet m k x) k0 = true := by
  unfold mapHas at h ⊢
  by_cases hk : k0 = k
  · subst hk
    rw [mapGet_mapSet_self]
    rfl
  · rw [mapGet_mapSet_other _ _ _ _ hk]
    exact h

/-- What a creating `_walk` that returns leaves behind: the same mount table,
every store that was there, and in the store walked a tree in which the
returned node is reached along the segments walked. -/
theorem walk_create_ok {v v1 : State} {physicalName relative : String} {p : WalkResult}
    (h : _walk v physicalName relative true = (v1, .ok p)) :
    v1.mounts = v.mounts ∧
    (∀ k, mapHas v.physicalStores k = true → mapHas v1.physicalStores k = true) ∧
    ∃ n T, p.node = some n ∧ mapGet v1.physicalStores physicalName = some T ∧
      reach T (walkParts relative) = some n := by
  unfold _walk at h
  cases hg : mapGet v.physicalStores physicalName with
  | none => rw [hg] at h; simp at h
  | some root =>
    rw [hg] at h
    simp only at h
    by_cases hrel : relative = "" ∨ relative = "/"
    · rw [if_pos hrel] at h
      simp only [Prod.mk.injEq, Except.ok.injEq] at h
      obtain ⟨hv, hp⟩ := h
      subst hv
      subst hp
      refine ⟨rfl, fun _ hk => hk, root, root, rfl, hg, ?_⟩
      rw [walkParts, if_pos hrel]
      rfl
    · rw [if_neg hrel] at h
      simp only [Prod.mk.injEq] at h
      obtain ⟨hv, hp⟩ := h
      subst hv
      refine ⟨rfl, fun k hk => mapHas_mapSet _ _ _ _ hk, ?_⟩
      rw [walkParts, if_neg hrel]
      rcases walkLoop_create (segments relative) none root with ⟨w, n, h1, h2, h3⟩ | ⟨h1, _⟩
      · rw [hp] at h1
        cases h1
        exact ⟨n, _, h2, mapGet_mapSet_self _ _ _, h3⟩
      · rw [hp] at h1
        cases h1

/-- After a `createFile` or `createFolder` that completed, the segments of the
parent path reach, in its store, a node with the new child pushed onto its
`children` array. -/
theorem createNode_ok {v v2 : State} {P : String} {child : Node}
    (h : createNode v P child = (v2, .ok ())) :
    ∃ (r : Resolved) (T n : Node) (cs : List Node), resolve v P = .ok r ∧ v2.mounts = v.mounts ∧
      (∀ k, mapHas v.physicalStores k = true → mapHas v2.physicalStores k = true) ∧
      mapGet v2.physicalStores r.physicalName = some T ∧
      reach T (segments r.relative) = some (n.setChildren (some (cs ++ [child]))) := by
  unfold createNode at h
  cases hr : resolve v P with
  | error e => rw [hr] at h; simp at h
  | ok r =>
    rw [hr] at h
    simp only at h
    rcases hwalk : _walk v r.physicalName r.relative true with ⟨v1, _ | p⟩
    · rw [hwalk] at h; simp at h
    · rw [hwalk] at h
      simp only at h
      obtain ⟨hm, hstores, n, T, hn, hget, hreach⟩ := walk_create_ok hwalk
      rw [hn] at h
      simp only at h
      cases hc : n.children with
      | none => rw [hc] at h; simp at h
      | some cs =>
        rw [hc] at h
        simp only [Prod.mk.injEq, and_true] at h
        subst h
        obtain ⟨hm2, hget2⟩ := mutateNode_get r.relative (pushChild child) hget
        refine ⟨r, _, n, cs, rfl, hm2.trans hm, ?_, hget2, ?_⟩
        · intro k hk
          have h1 := hstores k hk
          unfold mutateNode
          rw [hget]
          exact mapHas_mapSet _ _ _ _ h1
        · have := reach_mutateAt (pushChild child) (pushChild_name child) _ _ _ hreach
          rw [walkParts_eq] at this ⊢
          rw [this, pushChild, hc]
          rfl

/-- The non-creating `_walk` returns the node that the segments reach. -/
theorem walk_false_result {v : State} {physicalName relative : String} {root n : Node}
    (hg : mapGet v.physicalStores physicalName = some root)
    (hreach : reach root (segments relative) = some n) :
    ∃ w, (_walk v physicalName relative false).2 = .ok w ∧ w.node = some n := by
  unfold _walk
  rw [hg]
  simp only
  by_cases hrel : relative = "" ∨ relative = "/"
  · rw [if_pos hrel]
    have hs : segments relative = [] := by rw [← walkParts_eq, walkParts, if_pos hrel]
    rw [hs] at hreach
    exact ⟨_, rfl, hreach⟩
  · rw [if_neg hrel]
    simp only
    rcases walkLoop_false_snd (segments relative) none root with ⟨w, h1, h2⟩ | ⟨_, h2⟩
    · exact ⟨w, h1, by rw [h2, hreach]⟩
    · rw [h2] at hreach
      cases hreach

theorem mapHas_iff {κ υ : Type} [DecidableEq κ] (m : List (κ × υ)) (k : κ) :
    mapHas m k = true ↔ ∃ x, mapGet m k = some x := by
  unfold mapHas
  exact Option.isSome_iff_exists

/-- C3 (as stated, refuted): on the demo instance `createFile("res://", "a/b")`
completes and `list("res://")` then has an entry named `a/b`, but
`exists("res://" + "/" + "a/b")` is false. -/
theorem create_list_exists_counterexample :
    (createFile DemoVFS "res://" "a/b" "u").2 = .ok () ∧
    (list (createFile DemoVFS "res://" "a/b" "u").1 "res://").map
        (fun es => es.map (fun e => (e.name, e.isDirectory)))
      = .ok [("assets", true), ("scenes", true), ("a/b", false)] ∧
    «exists» (createFile DemoVFS "res://" "a/b" "u").1 ("res://" ++ "/" ++ "a/b") = false := by
  decide

/-- C3 (amended): for every state whose mount points end with a slash and are
bound to existing stores, every parent path `P` and every name `x` without a
slash (the empty name included) for which `createFile(P, x)` completes:
afterwards `list(P)` returns an array with an entry named `x` whose
`isDirectory` is false, and `exists(P + "/" + x)` is true. -/
theorem create_list_exists (v v2 : State) (P x uid : String) (hwf : WellFormed v)
    (hx : ∀ c ∈ x.data, c ≠ '/') (hc : createFile v P x uid = (v2, .ok ())) :
    (∃ es, list v2 P = .ok es ∧ ∃ e ∈ es, e.name = x ∧ e.isDirectory = false) ∧
    «exists» v2 (P ++ "/" ++ x) = true := by
  obtain ⟨r, T, n, cs, hr, hm, hstores, hget, hreach⟩ := createNode_ok hc
  have hr2 : resolve v2 P = .ok r := by rw [resolve_of_mounts hm]; exact hr
  constructor
  · obtain ⟨w, hw, hwn⟩ := walk_false_result hget hreach
    have hl : list v2 P = .ok
        (((n.setChildren (some (cs ++ [newFile x uid]))).children.getD []).map (fun c =>
          ({ name := c.name
             isDirectory := c.children.isSome
             path := _joinVirtual v2 r.physicalName r.relative c.name } : Entry))) := by
      unfold list
      rw [hr2]
      simp only [hw, hwn]
    refine ⟨_, hl, ?_⟩
    simp only [Node.children_setChildren, Option.getD_some, List.map_append, List.map_cons,
      List.map_nil, List.mem_append, List.mem_singleton]
    exact ⟨_, Or.inr rfl, rfl, rfl⟩
  · rw [exists_eq, nodeAt_eq]
    unfold resolve at hr ⊢
    rw [hm]
    rcases resolveIn_child v.mounts P x r (fun e he => (hwf e he).1) hx hr
      with ⟨rel, h1, h2⟩ | ⟨e, he, h1⟩
    · rw [h1]
      simp only [hget, h2, reach_append, hreach, Option.some_bind]
      rw [segments_of_no_slash x hx]
      by_cases hxe : x = ""
      · rw [if_pos hxe]
        rfl
      · rw [if_neg hxe]
        simp only [reach, Node.children_setChildren]
        cases hf : findChild x cs with
        | some c =>
          rw [findChild_append_of_some _ hf]
          rfl
        | none =>
          rw [findChild_append_of_none _ hf, findChild_cons,
            if_pos (show (newFile x uid).name = x from rfl)]
          rfl
    · rw [h1]
      obtain ⟨R, hR⟩ := (mapHas_iff _ _).1 (hstores _ (hwf e he).2)
      simp only [hR, segments_slash]
      rfl

/-- C3 (amended) at the demo instance, for the name `x` and for the empty
name. -/
theorem create_list_exists_witness :
    ((∃ es, list (createFile DemoVFS "res://assets" "x" "u").1 "res://assets" = .ok es ∧
        ∃ e ∈ es, e.name = "x" ∧ e.isDirectory = false) ∧
      «exists» (createFile DemoVFS "res://assets" "x" "u").1 ("res://assets" ++ "/" ++ "x") = true) ∧
    ((∃ es, list (createFile DemoVFS "res://assets" "" "u").1 "res://assets" = .ok es ∧
        ∃ e ∈ es, e.name = "" ∧ e.isDirectory = false) ∧
      «exists» (createFile DemoVFS "res://assets" "" "u").1 ("res://assets" ++ "/" ++ "") = true) :=
  ⟨create_list_exists DemoVFS _ "res://assets" "x" "u" (by decide) (by decide) rfl,
   create_list_exists DemoVFS _ "res://assets" "" "u" (by decide) (by decide) rfl⟩

/-! ## Well-formedness is what the operations maintain -/

theorem mem_mapSet {κ υ : Type} [DecidableEq κ] (m : List (κ × υ)) (k : κ) (x : υ)
    (e : κ × υ) (h : e ∈ mapSet m k x) : e ∈ m ∨ e = (k, x) := by
  induction m with
  | nil =>
    simp [mapSet] at h
    exact Or.inr h
  | cons d m ih =>
    obtain ⟨k', x'⟩ := d
    by_cases hk : k' = k
    · subst hk
      simp only [mapSet, if_true, List.mem_cons] at h
      rcases h with h | h
      · exact Or.inr h
      · exact Or.inl (List.mem_cons_of_mem _ h)
    · simp only [mapSet, hk, if_false, List.mem_cons] at h
      rcases h with h | h
      · exact Or.inl (h ▸ List.mem_cons_self _ _)
      · rcases ih h with h | h
        · exact Or.inl (List.mem_cons_of_mem _ h)
        · exact Or.inr h

theorem mem_mapDelete {κ υ : Type} [DecidableEq κ] (m : List (κ × υ)) (k : κ)
    (e : κ × υ) (h : e ∈ mapDelete m k) : e ∈ m := by
  induction m with
  | nil => simp [mapDelete] at h
  | cons d m ih =>
    obtain ⟨k', x'⟩ := d
    by_cases hk : k' = k
    · simp only [mapDelete, hk, if_true] at h
      exact List.mem_cons_of_mem _ h
    · simp only [mapDelete, hk, if_false, List.mem_cons] at h
      rcases h with h | h
      · exact h ▸ List.mem_cons_self _ _
      · exact List.mem_cons_of_mem _ (ih h)

theorem endsWithSlash_canonical (mountPoint : String) :
    endsWithSlash (canonical mountPoint) = true := by
  unfold canonical
  by_cases h : endsWithSlash mountPoint = true
  · rw [if_pos h]
    exact h
  · rw [if_neg h]
    simp [endsWithSlash, String.data_append]

theorem wellFormed_new : WellFormed State.new := by
  intro e he
  simp [State.new] at he

theorem wellFormed_createPhysicalStore (v : State) (name : String) (tree : Option Node)
    (h : WellFormed v) : WellFormed (createPhysicalStore v name tree) := by
  intro e he
  exact ⟨(h e he).1, mapHas_mapSet _ _ _ _ (h e he).2⟩

theorem wellFormed_mount (v : State) (mountPoint physicalName : String) (h : WellFormed v) :
    WellFormed (mount v mountPoint physicalName).1 := by
  unfold mount
  by_cases hs : mapHas v.physicalStores physicalName = true
  · simp only [hs, Bool.not_true, Bool.false_eq_true, if_false]
    intro e he
    rcases mem_mapSet _ _ _ _ he with he | he
    · exact h e he
    · subst he
      exact ⟨endsWithSlash_canonical _, hs⟩
  · simp only [hs, Bool.not_false, if_true]
    exact h

theorem wellFormed_unmount (v : State) (mountPoint : String) (h : WellFormed v) :
    WellFormed (unmount v mountPoint) := by
  intro e he
  exact h e (mem_mapDelete _ _ _ he)

theorem walk_stores (v : State) (physicalName relative : String) (b : Bool) :
    (_walk v physicalName relative b).1.mounts = v.mounts ∧
    ∀ k, mapHas v.physicalStores k = true →
      mapHas (_walk v physicalName relative b).1.physicalStores k = true := by
  rcases walk_state v physicalName relative b with h | ⟨root, _, h, _⟩
  · rw [h]
    exact ⟨rfl, fun _ hk => hk⟩
  · rw [h]
    exact ⟨rfl, fun k hk => mapHas_mapSet _ _ _ _ hk⟩

theorem mutateNode_stores (v : State) (physicalName relative : String) (f : Node → Node) :
    (mutateNode v physicalName relative f).mounts = v.mounts ∧
    ∀ k, mapHas v.physicalStores k = true →
      mapHas (mutateNode v physicalName relative f).physicalStores k = true := by
  unfold mutateNode
  cases mapGet v.physicalStores physicalName with
  | none => exact ⟨rfl, fun _ hk => hk⟩
  | some root => exact ⟨rfl, fun k hk => mapHas_mapSet _ _ _ _ hk⟩

theorem wellFormed_of_stores {v v2 : State} (h : WellFormed v)
    (hs : v2.mounts = v.mounts ∧
      ∀ k, mapHas v.physicalStores k = true → mapHas v2.physicalStores k = true) :
    WellFormed v2 := by
  intro e he
  rw [hs.1] at he
  exact ⟨(h e he).1, hs.2 _ (h e he).2⟩

theorem wellFormed_createNode (v : State) (P : String) (child : Node) (h : WellFormed v) :
    WellFormed (createNode v P child).1 := by
  unfold createNode
  cases resolve v P with
  | error e => exact h
  | ok r =>
    simp only
    have hw := wellFormed_of_stores h (walk_stores v r.physicalName r.relative true)
    rcases hwalk : _walk v r.physicalName r.relative true with ⟨v1, _ | ⟨wp, _ | node⟩⟩
    · rw [hwalk] at hw; exact hw
    · rw [hwalk] at hw; exact hw
    · rw [hwalk] at hw
      simp only
      cases node.children with
      | none => exact hw
      | some cs => exact wellFormed_of_stores hw (mutateNode_stores _ _ _ _)

theorem wellFormed_delete (v : State) (T : String) (h : WellFormed v) :
    WellFormed (delete v T).1 := by
  unfold delete
  cases resolve v T with
  | error e => exact h
  | ok r =>
    simp only
    cases (segments r.relative).getLast? with
    | none => exact h
    | some name =>
      simp only
      have hw := wellFormed_of_stores h
        (walk_stores v r.physicalName (joinSlash (segments r.relative).dropLast) false)
      rcases hwalk : _walk v r.physicalName (joinSlash (segments r.relative).dropLast) false
        with ⟨v1, _ | ⟨wp, _ | node⟩⟩
      · rw [hwalk] at hw; exact hw
      · rw [hwalk] at hw; exact hw
      · rw [hwalk] at hw
        simp only
        cases node.children with
        | none => exact hw
        | some cs => exact wellFormed_of_stores hw (mutateNode_stores _ _ _ _)

/-! ## C11, C16: load catches every error and writes nothing to the file system -/

/-- `load` returns `null` and leaves the manager alone wherever the path
denotes no node. -/
theorem load_of_nodeAt_none (vfs : State) (am : AssetManager) (path : String) (now : Nat)
    (h : nodeAt vfs path = none) :
    (load vfs am path now).result = none ∧ (load vfs am path now).manager = am := by
  unfold nodeAt at h
  unfold load
  cases hr : resolve vfs path with
  | error e => exact ⟨rfl, rfl⟩
  | ok r =>
    rw [hr] at h
    simp only at h ⊢
    rcases hw : _walk vfs r.physicalName r.relative false with ⟨v1, _ | ⟨wp, _ | node⟩⟩
    · exact ⟨rfl, rfl⟩
    · exact ⟨rfl, rfl⟩
    · rw [hw] at h
      simp at h

/-- Below a node without a `children` array nothing is reached. -/
theorem reach_through_file {R n : Node} {ps : List String} (q : String) (qs : List String)
    (hreach : reach R ps = some n) (hn : n.children = none) :
    reach R (ps ++ q :: qs) = none := by
  rw [reach_append, hreach]
  simp only [Option.some_bind, reach, hn]

/-- C11: for every state and every path string `load` returns a handle or
`null`, every throw of its body being caught; it returns `null` when `resolve`
throws, when the non-creating `_walk` throws, when that walk returns no node,
and in particular when the walk would have to descend through a node without
a `children` array. -/
theorem load_never_throws (vfs : State) (am : AssetManager) (path : String) (now : Nat) :
    ((load vfs am path now).result = none ∨ ∃ h, (load vfs am path now).result = some h) ∧
    (∀ e, resolve vfs path = .error e → (load vfs am path now).result = none) ∧
    (∀ r e, resolve vfs path = .ok r →
      (_walk vfs r.physicalName r.relative false).2 = .error e →
      (load vfs am path now).result = none) ∧
    (∀ r w, resolve vfs path = .ok r →
      (_walk vfs r.physicalName r.relative false).2 = .ok w → w.node = none →
      (load vfs am path now).result = none) ∧
    (∀ r R ps q qs n, resolve vfs path = .ok r →
      mapGet vfs.physicalStores r.physicalName = some R →
      segments r.relative = ps ++ q :: qs → reach R ps = some n → n.children = none →
      (load vfs am path now).result = none) := by
  refine ⟨?_, ?_, ?_, ?_, ?_⟩
  · cases (load vfs am path now).result with
    | none => exact Or.inl rfl
    | some h => exact Or.inr ⟨h, rfl⟩
  · intro e he
    exact (load_of_nodeAt_none vfs am path now (by unfold nodeAt; rw [he])).1
  · intro r e hr hw
    exact (load_of_nodeAt_none vfs am path now (by unfold nodeAt; rw [hr]; simp only [hw])).1
  · intro r w hr hw hn
    exact (load_of_nodeAt_none vfs am path now (by unfold nodeAt; rw [hr]; simp only [hw, hn])).1
  · intro r R ps q qs n hr hR hseg hreach hn
    refine (load_of_nodeAt_none vfs am path now ?_).1
    rw [nodeAt_eq, hr]
    simp only [hR, hseg]
    exact reach_through_file q qs hreach hn

/-- C11 at the demo instance: a path no mount point matches, the missing
`res://no/such/file`, and a path through the file `tree.fbx`. -/
theorem load_never_throws_witness :
    (load DemoVFS AssetManager.new "data://x" 0).result = none ∧
    (load DemoVFS AssetManager.new "res://no/such/file" 0).result = none ∧
    (load DemoVFS AssetManager.new "res://assets/models/tree.fbx/lod0" 0).result = none :=
  ⟨(load_never_throws DemoVFS AssetManager.new "data://x" 0).2.1 .noMountMatch (by decide),
   (load_never_throws DemoVFS AssetManager.new "res://no/such/file" 0).2.2.2.1
     ⟨"proj1", "no/such/file"⟩ ⟨some demoTree, none⟩ (by decide) rfl rfl,
   (load_never_throws DemoVFS AssetManager.new "res://assets/models/tree.fbx/lod0" 0).2.2.1
     ⟨"proj1", "assets/models/tree.fbx/lod0"⟩ .typeError (by decide) rfl⟩

/-- C16: for every state and every path string, whether `load` returns a handle
or `null`, the state of the file system after the call (mount table and every
store tree) is the state before it. -/
theorem load_read_only (vfs : State) (am : AssetManager) (path : String) (now : Nat) :
    (load vfs am path now).vfs = vfs := by
  unfold load
  cases hr : resolve vfs path with
  | error e => rfl
  | ok r =>
    simp only
    have hst := walk_false_state vfs r.physicalName r.relative
    rcases hw : _walk vfs r.physicalName r.relative false with ⟨v1, _ | ⟨wp, _ | node⟩⟩
    · rw [hw] at hst; exact hst
    · rw [hw] at hst; exact hst
    · rw [hw] at hst
      simp only
      by_cases hd : node.isDirectory = true
      · rw [if_pos hd]; exact hst
      · rw [if_neg hd]; exact hst

/-! ## C13: exists -/

/-- C13: for every state and every path string `exists` returns a boolean,
every throw of its body being caught, and it returns true exactly when
`resolve` succeeds and the non-creating `_walk` of the resolved store and
relative path returns a node; it is false when `resolve` throws and when the
walk throws.  In terms of the tree: it is true exactly when the store exists
and every segment of the relative path is found, in turn, among the children
of the node before it. -/
theorem exists_exact (v : State) (virtualPath : String) :
    («exists» v virtualPath = true ↔
      ∃ r w n, resolve v virtualPath = .ok r ∧
        (_walk v r.physicalName r.relative false).2 = .ok w ∧ w.node = some n) ∧
    (∀ e, resolve v virtualPath = .error e → «exists» v virtualPath = false) ∧
    (∀ r e, resolve v virtualPath = .ok r →
      (_walk v r.physicalName r.relative false).2 = .error e → «exists» v virtualPath = false) ∧
    («exists» v virtualPath = true ↔
      ∃ r R n, resolve v virtualPath = .ok r ∧
        mapGet v.physicalStores r.physicalName = some R ∧
        reach R (segments r.relative) = some n) := by
  refine ⟨?_, ?_, ?_, ?_⟩
  · unfold «exists»
    cases hr : resolve v virtualPath with
    | error e => simp
    | ok r =>
      simp only
      cases hw : (_walk v r.physicalName r.relative false).2 with
      | error e => simp [hw]
      | ok w =>
        simp only [Option.isSome_iff_exists]
        constructor
        · rintro ⟨n, hn⟩
          exact ⟨r, w, n, rfl, hw, hn⟩
        · rintro ⟨r', w', n, h1, h2, h3⟩
          cases h1
          rw [hw] at h2
          cases h2
          exact ⟨n, h3⟩
  · intro e he
    unfold «exists»
    rw [he]
  · intro r e hr hw
    unfold «exists»
    rw [hr]
    simp only [hw]
  · rw [exists_eq, nodeAt_eq]
    cases hr : resolve v virtualPath with
    | error e => simp
    | ok r =>
      simp only
      cases hR : mapGet v.physicalStores r.physicalName with
      | none => simp [hR]
      | some R =>
        simp only [Option.isSome_iff_exists]
        constructor
        · rintro ⟨n, hn⟩
          exact ⟨r, R, n, rfl, hR, hn⟩
        · rintro ⟨r', R', n, h1, h2, h3⟩
          cases h1
          rw [hR] at h2
          cases h2
          exact ⟨n, h3⟩

/-- C13 at the demo instance: the file `tree.fbx` exists, a path below it and
a path no mount point matches do not. -/
theorem exists_exact_witness :
    «exists» DemoVFS "res://assets/models/tree.fbx" = true ∧
    «exists» DemoVFS "res://assets/models/tree.fbx/lod0" = false ∧
    «exists» DemoVFS "data://x" = false :=
  ⟨(exists_exact DemoVFS "res://assets/models/tree.fbx").2.2.2.2
      ⟨⟨"proj1", "assets/models/tree.fbx"⟩, demoTree,
        Node.mk "tree.fbx" none false (some { uid := "mesh1" }), by decide, rfl, rfl⟩,
   (exists_exact DemoVFS "res://assets/models/tree.fbx/lod0").2.2.1
      ⟨"proj1", "assets/models/tree.fbx/lod0"⟩ .typeError (by decide) rfl,
   (exists_exact DemoVFS "data://x").2.1 .noMountMatch (by decide)⟩

/-! ## C15: mount -/

theorem mapSet_filter_other {κ υ : Type} [DecidableEq κ] (m : List (κ × υ)) (k : κ) (x : υ) :
    (mapSet m k x).filter (fun e => e.1 ≠ k) = m.filter (fun e => e.1 ≠ k) := by
  induction m with
  | nil => simp [mapSet]
  | cons e m ih =>
    obtain ⟨k', x'⟩ := e
    by_cases hk : k' = k
    · simp [mapSet, hk]
    · simp only [mapSet, if_neg hk, List.filter_cons]
      rw [ih]

/-- C15: `mount` throws `Unknown physical store` exactly when `physicalName` is
not a registered store, and then leaves the state as it was; otherwise it
completes, the mount table maps the canonical mount point (`M` when it ends
with a slash, else `M + "/"`) to `physicalName`, every other key looks up what
it did, the other entries are the same in the same order, and the stores are
untouched. -/
theorem mount_exact (v : State) (M S : String) :
    ((mount v M S).2 = .error .unknownStore ↔ mapHas v.physicalStores S = false) ∧
    (mapHas v.physicalStores S = false → (mount v M S).1 = v) ∧
    (mapHas v.physicalStores S = true →
      (mount v M S).2 = .ok () ∧
      mapGet (mount v M S).1.mounts (if endsWithSlash M then M else M ++ "/") = some S ∧
      (∀ k, k ≠ (if endsWithSlash M then M else M ++ "/") →
        mapGet (mount v M S).1.mounts k = mapGet v.mounts k) ∧
      (mount v M S).1.mounts.filter (fun e => e.1 ≠ (if endsWithSlash M then M else M ++ "/"))
        = v.mounts.filter (fun e => e.1 ≠ (if endsWithSlash M then M else M ++ "/")) ∧
      (mount v M S).1.physicalStores = v.physicalStores) := by
  by_cases hS : mapHas v.physicalStores S = true
  · have hm : mount v M S
        = (State.mk (mapSet v.mounts (canonical M) S) v.physicalStores, .ok ()) := by
      simp [mount, hS]
    rw [hm]
    refine ⟨by simp [hS], by simp [hS], fun _ => ⟨rfl, ?_, ?_, ?_, rfl⟩⟩
    · exact mapGet_mapSet_self _ _ _
    · intro k hk
      exact mapGet_mapSet_other _ _ _ _ hk
    · exact mapSet_filter_other _ _ _
  · have hS' : mapHas v.physicalStores S = false := by simpa using hS
    have hm : mount v M S = (v, .error .unknownStore) := by
      simp [mount, hS']
    rw [hm]
    exact ⟨by simp [hS'], fun _ => rfl, fun h => absurd h hS⟩

/-- C15 at the demo instance: a store that does not exist, and the mount point
`mnt` on the store `proj1`. -/
theorem mount_exact_witness :
    (mount DemoVFS "mnt" "nostore").1 = DemoVFS ∧
    mapGet (mount DemoVFS "mnt" "proj1").1.mounts
      (if endsWithSlash "mnt" then "mnt" else "mnt" ++ "/") = some "proj1" :=
  ⟨(mount_exact DemoVFS "mnt" "nostore").2.1 (by decide),
   ((mount_exact DemoVFS "mnt" "proj1").2.2 (by decide)).2.1⟩

/-! ## C12: resolve takes the first entry that matches -/

theorem resolveIn_ok_iff (m : List (String × String)) (path : String) (r : Resolved) :
    resolveIn m path = .ok r ↔
      ∃ pre mp pn post, m = pre ++ (mp, pn) :: post ∧
        (∀ e ∈ pre, mountMatches path e.1 = false) ∧ mountMatches path mp = true ∧
        r = resolved path mp pn := by
  induction m with
  | nil => simp [resolveIn]
  | cons e m ih =>
    obtain ⟨mp0, pn0⟩ := e
    by_cases h0 : mountMatches path mp0 = true
    · simp only [resolveIn, h0, if_true, Except.ok.injEq]
      constructor
      · intro h
        exact ⟨[], mp0, pn0, m, rfl, by simp, h0, h.symm⟩
      · rintro ⟨pre, mp, pn, post, hm, hpre, _, hr⟩
        cases pre with
        | nil =>
          simp only [List.nil_append, List.cons.injEq, Prod.mk.injEq] at hm
          obtain ⟨⟨h1, h2⟩, _⟩ := hm
          subst h1 h2
          exact hr.symm
        | cons d pre =>
          simp only [List.cons_append, List.cons.injEq] at hm
          have := hpre d (List.mem_cons_self _ _)
          rw [← hm.1] at this
          simp [h0] at this
    · have h0' : mountMatches path mp0 = false := by simpa using h0
      simp only [resolveIn, h0', Bool.false_eq_true, if_false]
      rw [ih]
      constructor
      · rintro ⟨pre, mp, pn, post, hm, hpre, hmp, hr⟩
        refine ⟨(mp0, pn0) :: pre, mp, pn, post, by rw [hm]; rfl, ?_, hmp, hr⟩
        intro e he
        rcases List.mem_cons.1 he with rfl | he
        · simpa using h0
        · exact hpre e he
      · rintro ⟨pre, mp, pn, post, hm, hpre, hmp, hr⟩
        cases pre with
        | nil =>
          simp only [List.nil_append, List.cons.injEq, Prod.mk.injEq] at hm
          obtain ⟨⟨h1, _⟩, _⟩ := hm
          subst h1
          exact absurd hmp h0
        | cons d pre =>
          simp only [List.cons_append, List.cons.injEq] at hm
          exact ⟨pre, mp, pn, post, hm.2, fun e he => hpre e (List.mem_cons_of_mem _ he), hmp, hr⟩

theorem resolveIn_error (m : List (String × String)) (path : String) :
    (resolveIn m path = .error .noMountMatch ↔ ∀ e ∈ m, mountMatches path e.1 = false) ∧
    (∀ e, resolveIn m path = .error e → e = .noMountMatch) := by
  induction m with
  | nil => simp [resolveIn]
  | cons d m ih =>
    obtain ⟨mp0, pn0⟩ := d
    by_cases h0 : mountMatches path mp0 = true
    · simp [resolveIn, h0]
    · have h0' : mountMatches path mp0 = false := by simpa using h0
      simp only [resolveIn, h0, List.mem_cons, forall_eq_or_imp, h0', true_and]
      exact ih

/-- The test of the code is the test of the spec for a mount point that ends
with a slash. -/
theorem mountMatches_spec (path mp : String) (hmp : endsWithSlash mp = true) :
    mountMatches path mp = true ↔ specMatches path mp := by
  rw [mountMatches_iff, specMatches, specStripped, if_pos hmp, startsWith,
    List.isPrefixOf_iff_prefix]

theorem resolved_spec (path mp pn : String) :
    resolved path mp pn = { physicalName := pn, relative := specRelative path mp } := by
  have e : sliceFrom path mp.length = String.mk (List.drop mp.data.length path.data) := rfl
  unfold resolved specRelative
  simp only [e]
  by_cases h : List.drop mp.data.length path.data = []
  · rw [if_pos h, if_pos (by rw [h])]
  · have : String.mk (List.drop mp.data.length path.data) ≠ "" := by
      intro e
      exact h (congrArg String.data e)
    rw [if_neg h, if_neg this]

/-- C12: for every mount table whose mount points end with a slash (as `mount`
writes them) and every virtual path, `resolve` returns `r` exactly when `r` is
the store of the first entry, in insertion order, that matches the path in the
words of the spec, with the relative path of the spec; and it throws, always
`No mount matches`, exactly when no entry matches. -/
theorem resolve_first_match (v : State) (virtualPath : String)
    (hc : ∀ e ∈ v.mounts, endsWithSlash e.1 = true) :
    (∀ r, resolve v virtualPath = .ok r ↔
      ∃ pre mp pn post, v.mounts = pre ++ (mp, pn) :: post ∧
        (∀ e ∈ pre, ¬ specMatches virtualPath e.1) ∧ specMatches virtualPath mp ∧
        r = { physicalName := pn, relative := specRelative virtualPath mp }) ∧
    (resolve v virtualPath = .error .noMountMatch ↔
      ∀ e ∈ v.mounts, ¬ specMatches virtualPath e.1) ∧
    (∀ e, resolve v virtualPath = .error e → e = .noMountMatch) := by
  unfold resolve
  refine ⟨?_, ?_, (resolveIn_error v.mounts virtualPath).2⟩
  · intro r
    rw [resolveIn_ok_iff]
    constructor
    · rintro ⟨pre, mp, pn, post, hm, hpre, hmp, hr⟩
      have hin : ∀ e ∈ pre, e ∈ v.mounts := fun e he => by rw [hm]; simp [he]
      have hmpin : (mp, pn) ∈ v.mounts := by rw [hm]; simp
      refine ⟨pre, mp, pn, post, hm, ?_, (mountMatches_spec _ _ (hc _ hmpin)).1 hmp, ?_⟩
      · intro e he hs
        have := (mountMatches_spec _ _ (hc e (hin e he))).2 hs
        rw [hpre e he] at this
        cases this
      · rw [hr, resolved_spec]
    · rintro ⟨pre, mp, pn, post, hm, hpre, hmp, hr⟩
      have hin : ∀ e ∈ pre, e ∈ v.mounts := fun e he => by rw [hm]; simp [he]
      have hmpin : (mp, pn) ∈ v.mounts := by rw [hm]; simp
      refine ⟨pre, mp, pn, post, hm, ?_, (mountMatches_spec _ _ (hc _ hmpin)).2 hmp, ?_⟩
      · intro e he
        cases hmm : mountMatches virtualPath e.1 with
        | false => rfl
        | true => exact absurd ((mountMatches_spec _ _ (hc e (hin e he))).1 hmm) (hpre e he)
      · rw [hr, resolved_spec]
  · rw [(resolveIn_error v.mounts virtualPath).1]
    constructor
    · intro h e he hs
      have := (mountMatches_spec _ _ (hc e he)).2 hs
      rw [h e he] at this
      cases this
    · intro h e he
      cases hmm : mountMatches virtualPath e.1 with
      | false => rfl
      | true => exact absurd ((mountMatches_spec _ _ (hc e he)).1 hmm) (h e he)

/-- C12 at the demo instance: `res://x` is resolved through the entry
`res://`, the first and only one, which is a prefix of it. -/
theorem resolve_first_match_witness :
    resolve DemoVFS "res://x"
      = .ok { physicalName := "proj1", relative := specRelative "res://x" "res://" } :=
  ((resolve_first_match DemoVFS "res://x" (by decide)).1 _).2
    ⟨[], "res://", "proj1", [], rfl, by simp, Or.inr ⟨['x'], rfl⟩, rfl⟩

/-! ## C20: failed loads take no id -/

theorem mapSet_new {κ υ : Type} [DecidableEq κ] (m : List (κ × υ)) (k : κ) (x : υ)
    (h : k ∉ m.map Prod.fst) : mapSet m k x = m ++ [(k, x)] := by
  induction m with
  | nil => rfl
  | cons e m ih =>
    obtain ⟨k', x'⟩ := e
    simp only [List.map_cons, List.mem_cons, not_or] at h
    have hk : ¬ k' = k := fun e => h.1 e.symm
    simp [mapSet, hk, ih h.2]

/-- From a manager whose by-id keys are all below its next id, a sequence of
calls returns handles with the next ids in turn, one per successful call, and
enters exactly these ids, in this order, after the keys that were there. -/
theorem runLoads_ids (calls : List LoadCall) :
    ∀ am : AssetManager, (∀ k ∈ am.handles.map Prod.fst, k < am.nextHandle) →
      (successes (runLoads am calls).2).map (fun h => h.handle)
        = List.range' am.nextHandle (successes (runLoads am calls).2).length ∧
      (runLoads am calls).1.nextHandle
        = am.nextHandle + (successes (runLoads am calls).2).length ∧
      (runLoads am calls).1.handles.map Prod.fst
        = am.handles.map Prod.fst
          ++ List.range' am.nextHandle (successes (runLoads am calls).2).length := by
  induction calls with
  | nil =>
    intro am _
    simp [runLoads, successes]
  | cons c cs ih =>
    intro am hinv
    simp only [runLoads]
    rcases load_cases c.vfs am c.path c.now with ⟨hm, hres⟩ | ⟨h, hid, _, hres, hm⟩
    · rw [hm, hres]
      simpa [successes] using ih am hinv
    · have hnew : am.nextHandle ∉ am.handles.map Prod.fst :=
        fun hin => Nat.lt_irrefl _ (hinv _ hin)
      have hnext : (load c.vfs am c.path c.now).manager.nextHandle = am.nextHandle + 1 := by
        rw [hm]
      have hkeys : (load c.vfs am c.path c.now).manager.handles.map Prod.fst
          = am.handles.map Prod.fst ++ [am.nextHandle] := by
        rw [hm]
        simp only
        rw [hid, mapSet_new _ _ _ hnew]
        simp
      have hinv' : ∀ k ∈ (load c.vfs am c.path c.now).manager.handles.map Prod.fst,
          k < (load c.vfs am c.path c.now).manager.nextHandle := by
        intro k hk
        rw [hkeys] at hk
        rw [hnext]
        rcases List.mem_append.1 hk with hk | hk
        · exact Nat.lt_succ_of_lt (hinv k hk)
        · simp only [List.mem_singleton] at hk
          omega
      obtain ⟨i1, i2, i3⟩ := ih (load c.vfs am c.path c.now).manager hinv'
      have hsucc : successes ((load c.vfs am c.path c.now).result ::
          (runLoads (load c.vfs am c.path c.now).manager cs).2)
          = h :: successes (runLoads (load c.vfs am c.path c.now).manager cs).2 := by
        simp [successes, hres]
      rw [hsucc]
      rw [hnext] at i1 i2 i3
      rw [hkeys] at i3
      refine ⟨?_, ?_, ?_⟩
      · simp only [List.map_cons, List.length_cons, List.range'_succ, i1, hid]
      · rw [i2, List.length_cons]
        omega
      · rw [i3, List.length_cons, List.range'_succ]
        simp

/-- C20: a `load` that returns `null` leaves the manager (next id and both
indices) as it was; so for every sequence of `load` calls on a new manager the
handles returned carry the ids 1, 2, …, n in call order, the next id is then
n + 1, and the keys of the by-id index are exactly 1, …, n. -/
theorem failed_load_takes_no_id :
    (∀ vfs am path now, (load vfs am path now).result = none →
      (load vfs am path now).manager = am) ∧
    ∀ calls : List LoadCall,
      (successes (runLoads AssetManager.new calls).2).map (fun h => h.handle)
        = List.range' 1 (successes (runLoads AssetManager.new calls).2).length ∧
      (runLoads AssetManager.new calls).1.nextHandle
        = (successes (runLoads AssetManager.new calls).2).length + 1 ∧
      (runLoads AssetManager.new calls).1.handles.map Prod.fst
        = List.range' 1 (successes (runLoads AssetManager.new calls).2).length := by
  constructor
  · intro vfs am path now hnone
    rcases load_cases vfs am path now with ⟨hm, _⟩ | ⟨h, _, _, hres, _⟩
    · exact hm
    · rw [hres] at hnone
      cases hnone
  · intro calls
    obtain ⟨h1, h2, h3⟩ := runLoads_ids calls AssetManager.new (by simp [AssetManager.new])
    refine ⟨h1, ?_, ?_⟩
    · rw [h2]
      show 1 + _ = _ + 1
      omega
    · rw [h3]
      simp [AssetManager.new]

/-- C20 at an instance: of three calls on a new manager the second fails; the
other two return the ids 1 and 2 and the by-id index has the keys 1 and 2. -/
theorem failed_load_takes_no_id_witness :
    (runLoads AssetManager.new
      [⟨DemoVFS, "res://assets/models/tree.fbx", 10⟩, ⟨DemoVFS, "res://no/such/file", 11⟩,
       ⟨DemoVFS, "res://scenes/level1.scene", 12⟩]).1.handles.map Prod.fst
      = List.range' 1 (successes (runLoads AssetManager.new
      [⟨DemoVFS, "res://assets/models/tree.fbx", 10⟩, ⟨DemoVFS, "res://no/such/file", 11⟩,
       ⟨DemoVFS, "res://scenes/level1.scene", 12⟩]).2).length ∧
    (successes (runLoads AssetManager.new
      [⟨DemoVFS, "res://assets/models/tree.fbx", 10⟩, ⟨DemoVFS, "res://no/such/file", 11⟩,
       ⟨DemoVFS, "res://scenes/level1.scene", 12⟩]).2).length = 2 :=
  ⟨(failed_load_takes_no_id.2 _).2.2, by decide⟩

/-! ## C17: the creating walk -/

/-- The loop on a node it has just synthesized and pushed onto `d`. -/
theorem walkLoop_synthesized (rest : List String) :
    ∀ (part : String) (d : Node) (cs : List Node), d.children = some cs →
      walkLoop true (some (d.setChildren (some (cs ++ [synthesized part (!rest.isEmpty)]))))
          (synthesized part (!rest.isEmpty)) rest
        = (chain part rest,
            .ok { parent := some (container d part rest), node := some (chainLeaf part rest) }) := by
  induction rest with
  | nil =>
    intro part d cs hd
    simp only [walkLoop, chain, container, chainLeaf, pushChild, hd, Option.map_some',
      List.isEmpty_nil, Bool.not_true]
  | cons next rest ih =>
    intro part d cs _
    have hc : (synthesized part (!(next :: rest).isEmpty)).children = some [] := rfl
    have hf : findChild next ([] : List Node) = none := rfl
    have ih' := ih next (synthesized part (!(next :: rest).isEmpty)) [] hc
    simp only [walkLoop, hc, hf, if_true, chain, container, chainLeaf]
    rw [ih']
    rfl

/-- The creating loop along segments of which `pre` exist, leading to a node
`d` with a `children` array that lacks the next segment `part`: the chain of
synthesized nodes is pushed onto `d`, and the loop returns its last node and
the node holding it. -/
theorem walkLoop_missing (pre : List String) :
    ∀ (parent : Option Node) (R d : Node) (cs : List Node) (part : String) (rest : List String),
      reach R pre = some d → d.children = some cs → findChild part cs = none →
      walkLoop true parent R (pre ++ part :: rest)
        = (mutateAt (pushChild (chain part rest)) R pre,
            .ok { parent := some (container d part rest), node := some (chainLeaf part rest) }) := by
  induction pre with
  | nil =>
    intro parent R d cs part rest hreach hd hmiss
    simp only [reach, Option.some.injEq] at hreach
    subst hreach
    simp only [List.nil_append, walkLoop, hd, hmiss, if_true, mutateAt]
    rw [walkLoop_synthesized rest part R cs hd]
    simp only [pushChild, hd, Option.map_some']
  | cons p pre ih =>
    intro parent R d cs part rest hreach hd hmiss
    simp only [reach] at hreach
    cases hc : R.children with
    | none => rw [hc] at hreach; cases hreach
    | some rcs =>
      rw [hc] at hreach
      simp only at hreach
      cases hf : findChild p rcs with
      | none => rw [hf] at hreach; cases hreach
      | some c =>
        rw [hf] at hreach
        simp only at hreach
        have ih' : walkLoop true (some R) c (pre.append (part :: rest)) = _ :=
          ih (some R) c d cs part rest hreach hd hmiss
        simp only [List.cons_append, walkLoop, hc, hf, mutateAt]
        rw [ih']

theorem container_children (rest : List String) :
    ∀ (part : String) (d : Node) (cs : List Node), d.children = some cs →
      ∃ xs, (container d part rest).children = some (xs ++ [chainLeaf part rest]) := by
  induction rest with
  | nil =>
    intro part d cs hd
    exact ⟨cs, by simp [container, chainLeaf, pushChild, hd]⟩
  | cons next rest ih =>
    intro part d cs _
    simp only [container, chainLeaf]
    exact ih next (synthesized part true) [] rfl

theorem chainLeaf_eq (rest : List String) :
    ∀ part : String,
      chainLeaf part rest
        = Node.mk ((part :: rest).getLast (List.cons_ne_nil _ _)) (some []) false none := by
  induction rest with
  | nil => intro part; rfl
  | cons next rest ih =>
    intro part
    simp only [chainLeaf, ih next]
    rfl

/-- C17 (as stated, refuted): on the demo store the creating walk of `a/b`,
both segments missing, returns for the final segment `b` a node whose
`children` is an (empty) array, not an absent slot. -/
theorem walk_create_counterexample :
    (_walk DemoVFS "proj1" "a/b" true).2
      = .ok { parent := some (Node.mk "a" (some [Node.mk "b" (some []) false none]) true none)
              node := some (Node.mk "b" (some []) false none) } ∧
    (Node.mk "b" (some []) false none).children ≠ none :=
  ⟨rfl, by simp [Node.children]⟩

/-- C17 (amended): for every store and relative path whose leading segments
`pre` lead, through nodes with a `children` array, to a node `d` with such an
array that has no child for the next segment `part`: `_walk` with
`createIfMissing = true` synthesizes one node per missing segment, each with
an empty `children` array and no metadata, `isDirectory` true on all but the
one for the final segment and false on that one, each the only child of the
one above and the first appended to the children of `d`; it returns the node
of the final segment with the node that holds it as parent. -/
theorem walk_create_missing (v : State) (physicalName relative : String) (R d : Node)
    (cs : List Node) (pre : List String) (part : String) (rest : List String)
    (hR : mapGet v.physicalStores physicalName = some R)
    (hseg : segments relative = pre ++ part :: rest)
    (hd : reach R pre = some d) (hcs : d.children = some cs)
    (hmiss : findChild part cs = none) :
    _walk v physicalName relative true
      = (State.mk v.mounts (mapSet v.physicalStores physicalName
            (mutateAt (pushChild (chain part rest)) R pre)),
          .ok { parent := some (container d part rest), node := some (chainLeaf part rest) }) ∧
    chainLeaf part rest
      = Node.mk ((part :: rest).getLast (List.cons_ne_nil _ _)) (some []) false none ∧
    (∃ xs, (container d part rest).children = some (xs ++ [chainLeaf part rest])) := by
  refine ⟨?_, chainLeaf_eq rest part, container_children rest part d cs hcs⟩
  have hrel : ¬ (relative = "" ∨ relative = "/") := by
    intro h
    have : segments relative = [] := by rw [← walkParts_eq, walkParts, if_pos h]
    rw [this] at hseg
    cases pre <;> cases hseg
  unfold _walk
  rw [hR]
  simp only [if_neg hrel, hseg]
  rw [walkLoop_missing pre none R d cs part rest hd hcs hmiss]

/-- C17 (amended) at the demo store: the walk of `assets/cache/tmp`, of which
`assets` exists. -/
theorem walk_create_missing_witness :
    (_walk DemoVFS "proj1" "assets/cache/tmp" true).2
      = .ok { parent := some (Node.mk "cache" (some [Node.mk "tmp" (some []) false none]) true none)
              node := some (Node.mk "tmp" (some []) false none) } :=
  congrArg Prod.snd
    (walk_create_missing DemoVFS "proj1" "assets/cache/tmp" demoTree
      (Node.mk "assets" (some [
        Node.mk "models" (some [
          Node.mk "tree.fbx" none false (some { uid := "mesh1" })]) true none,
        Node.mk "textures" (some [
          Node.mk "wood.png" none false (some { uid := "tex1" })]) true none]) true none)
      _ ["assets"] "cache" ["tmp"] rfl (by decide) rfl rfl rfl).1

/-! ## C18: delete below a missing parent or a file -/

theorem walk_snd (v : State) (physicalName relative : String) (b : Bool) (R : Node)
    (hR : mapGet v.physicalStores physicalName = some R) :
    (_walk v physicalName relative b).2 = (walkLoop b none R (walkParts relative)).2 := by
  unfold _walk walkParts
  rw [hR]
  simp only
  by_cases h : relative = "" ∨ relative = "/"
  · rw [if_pos h, if_pos h]
    rfl
  · rw [if_neg h, if_neg h]

/-- Where the non-creating loop reaches no node, it throws if it met a file
and returns no node if it met a missing segment. -/
theorem walkLoop_false_none (parts : List String) :
    ∀ (parent : Option Node) (node : Node), reach node parts = none →
      (fileOnPath node parts = true ∧
        (walkLoop false parent node parts).2 = .error .typeError) ∨
      (fileOnPath node parts = false ∧
        ∃ w, (walkLoop false parent node parts).2 = .ok w ∧ w.node = none) := by
  induction parts with
  | nil =>
    intro parent node h
    simp [reach] at h
  | cons part rest ih =>
    intro parent node h
    simp only [reach] at h
    simp only [fileOnPath, walkLoop]
    cases hc : node.children with
    | none => exact Or.inl ⟨rfl, rfl⟩
    | some cs =>
      rw [hc] at h
      simp only at h ⊢
      cases hf : findChild part cs with
      | none => exact Or.inr ⟨rfl, _, rfl, rfl⟩
      | some child =>
        rw [hf] at h
        exact ih (some node) child h

theorem fileOnPath_of_reach (parts : List String) :
    ∀ (node n : Node), reach node parts = some n →
      fileOnPath node parts = n.children.isNone := by
  induction parts with
  | nil =>
    intro node n h
    simp only [reach, Option.some.injEq] at h
    subst h
    rfl
  | cons part rest ih =>
    intro node n h
    simp only [reach] at h
    simp only [fileOnPath]
    cases hc : node.children with
    | none => rw [hc] at h; cases h
    | some cs =>
      rw [hc] at h
      simp only at h ⊢
      cases hf : findChild part cs with
      | none => rw [hf] at h; cases h
      | some child =>
        rw [hf] at h
        exact ih child n h

/-- C18 (the code at the failing inputs): on the demo instance the parent of
`res://assets/models/tree.fbx/lod0` is the file `tree.fbx`, and the parent of
`res://assets/models/tree.fbx/a/b` lies below that file; `delete` leaves the
state as it was but throws the `TypeError` of a read on `null` for both, not
`Parent not found`, which it does throw for the missing parent of
`res://no/such/file`. -/
theorem delete_below_file_type_error :
    delete DemoVFS "res://assets/models/tree.fbx/lod0" = (DemoVFS, .error .typeError) ∧
    (delete DemoVFS "res://assets/models/tree.fbx/lod0").2 ≠ .error .parentNotFound ∧
    delete DemoVFS "res://assets/models/tree.fbx/a/b" = (DemoVFS, .error .typeError) ∧
    (delete DemoVFS "res://assets/models/tree.fbx/a/b").2 ≠ .error .parentNotFound ∧
    delete DemoVFS "res://no/such/file" = (DemoVFS, .error .parentNotFound) :=
  ⟨rfl, by decide, rfl, by decide, rfl⟩

/-- What `delete` does, in every state, with a virtual path that resolves,
with at least one segment, into an existing store, and whose parent segments
reach no node with a `children` array: it throws and leaves the whole state as
it was; the guard `Parent not found` fires when a segment of the parent path
is missing below nodes with a `children` array, and the read of `children` on
`null` throws a `TypeError` when the parent, or a node before it on the path,
is a file. -/
theorem delete_missing_parent (v : State) (T : String) (r : Resolved) (R : Node)
    (ps : List String) (name : String)
    (hr : resolve v T = .ok r) (hR : mapGet v.physicalStores r.physicalName = some R)
    (hseg : segments r.relative = ps ++ [name])
    (hno : ∀ n, reach R ps = some n → n.children = none) :
    delete v T = (v, .error (if fileOnPath R ps = true then .typeError else .parentNotFound)) := by
  have hlast : (segments r.relative).getLast? = some name := by rw [hseg]; simp
  have hdrop : (segments r.relative).dropLast = ps := by rw [hseg]; simp
  have hparts : walkParts (joinSlash ps) = ps := by
    rw [← hdrop]
    exact walkParts_parent r.relative
  have hst := walk_false_state v r.physicalName (joinSlash ps)
  have hsnd := walk_snd v r.physicalName (joinSlash ps) false R hR
  rw [hparts] at hsnd
  unfold delete
  rw [hr]
  simp only [hlast, hdrop]
  rcases hwalk : _walk v r.physicalName (joinSlash ps) false with ⟨v1, res⟩
  rw [hwalk] at hst hsnd
  simp only at hst hsnd
  subst hst
  cases hreach : reach R ps with
  | some n =>
    have hn := hno n hreach
    rcases walkLoop_false_snd ps none R with ⟨w, h1, h2⟩ | ⟨_, h2⟩
    · rw [← hsnd] at h1
      subst h1
      rw [hreach] at h2
      simp only [h2, hn]
      rw [fileOnPath_of_reach ps R n hreach, hn]
      rfl
    · rw [hreach] at h2
      cases h2
  | none =>
    rcases walkLoop_false_none ps none R hreach with ⟨hf, h1⟩ | ⟨hf, w, h1, h2⟩
    · rw [← hsnd] at h1
      subst h1
      rw [hf]
      rfl
    · rw [← hsnd] at h1
      subst h1
      simp only [h2, hf]
      rfl

/-- The three cases at the demo instance: a missing parent, a parent that is a
file, and a parent below a file. -/
theorem delete_missing_parent_demo :
    delete DemoVFS "res://no/such/file" = (DemoVFS, .error .parentNotFound) ∧
    delete DemoVFS "res://assets/models/tree.fbx/lod0" = (DemoVFS, .error .typeError) ∧
    delete DemoVFS "res://assets/models/tree.fbx/a/b" = (DemoVFS, .error .typeError) :=
  ⟨delete_missing_parent DemoVFS "res://no/such/file" ⟨"proj1", "no/such/file"⟩ demoTree
      ["no", "such"] "file" (by decide) rfl (by decide) (by intro n h; cases h),
   delete_missing_parent DemoVFS "res://assets/models/tree.fbx/lod0"
      ⟨"proj1", "assets/models/tree.fbx/lod0"⟩ demoTree
      ["assets", "models", "tree.fbx"] "lod0" (by decide) rfl (by decide)
      (by intro n h; cases h; rfl),
   delete_missing_parent DemoVFS "res://assets/models/tree.fbx/a/b"
      ⟨"proj1", "assets/models/tree.fbx/a/b"⟩ demoTree
      ["assets", "models", "tree.fbx", "a"] "b" (by decide) rfl (by decide)
      (by intro n h; cases h)⟩

/-! ## C14: names among siblings -/

theorem uniqueNamesAll_iff (cs : List Node) :
    uniqueNamesAll cs = true ↔ ∀ c ∈ cs, uniqueNames c = true := by
  induction cs with
  | nil => simp [uniqueNamesAll]
  | cons c cs ih => simp [uniqueNamesAll, ih]

theorem uniqueNames_iff (n : Node) :
    uniqueNames n = true ↔
      ∀ cs, n.children = some cs →
        (cs.map Node.name).Nodup ∧ ∀ c ∈ cs, uniqueNames c = true := by
  obtain ⟨nm, cs, d, m⟩ := n
  cases cs with
  | none => simp [uniqueNames, Node.children]
  | some cs => simp [uniqueNames, Node.children, uniqueNamesAll_iff]

theorem uniqueNames_setChildren (n : Node) (cs : List Node) :
    uniqueNames (n.setChildren (some cs)) = true ↔
      (cs.map Node.name).Nodup ∧ ∀ c ∈ cs, uniqueNames c = true := by
  rw [uniqueNames_iff]
  simp

theorem replaceChild_names (part : String) (c' : Node) (hn : c'.name = part) (cs : List Node) :
    (replaceChild part c' cs).map Node.name = cs.map Node.name := by
  induction cs with
  | nil => rfl
  | cons d cs ih =>
    by_cases hd : d.name = part
    · simp [replaceChild, hd, hn]
    · simp [replaceChild, hd, ih]

theorem mem_replaceChild (part : String) (c' : Node) (cs : List Node) (x : Node)
    (h : x ∈ replaceChild part c' cs) : x = c' ∨ x ∈ cs := by
  induction cs with
  | nil => simp [replaceChild] at h
  | cons d cs ih =>
    by_cases hd : d.name = part
    · simp only [replaceChild, hd, if_true, List.mem_cons] at h
      rcases h with h | h
      · exact Or.inl h
      · exact Or.inr (List.mem_cons_of_mem _ h)
    · simp only [replaceChild, hd, if_false, List.mem_cons] at h
      rcases h with h | h
      · exact Or.inr (h ▸ List.mem_cons_self _ _)
      · rcases ih h with h | h
        · exact Or.inl h
        · exact Or.inr (List.mem_cons_of_mem _ h)

theorem findChild_mem {part : String} {cs : List Node} {c : Node}
    (h : findChild part cs = some c) : c ∈ cs :=
  List.mem_of_find?_eq_some h

theorem not_mem_names_of_findChild_none {part : String} {cs : List Node}
    (h : findChild part cs = none) : part ∉ cs.map Node.name := by
  intro hin
  obtain ⟨c, hc, hname⟩ := List.mem_map.1 hin
  have := List.find?_eq_none.1 h c hc
  simp [hname] at this

theorem nodup_names_append {cs : List Node} {c : Node}
    (h : (cs.map Node.name).Nodup) (hc : c.name ∉ cs.map Node.name) :
    ((cs ++ [c]).map Node.name).Nodup := by
  rw [List.map_append, List.nodup_append]
  refine ⟨h, by simp, ?_⟩
  intro x hx hx'
  simp only [List.map_cons, List.map_nil, List.mem_singleton] at hx'
  subst hx'
  exact hc hx

/-- The creating loop keeps names unique among siblings. -/
theorem uniqueNames_walkLoop (parts : List String) :
    ∀ (parent : Option Node) (node : Node), uniqueNames node = true →
      uniqueNames (walkLoop true parent node parts).1 = true := by
  induction parts with
  | nil => intro parent node h; exact h
  | cons part rest ih =>
    intro parent node h
    cases hc : node.children with
    | none =>
      simp only [walkLoop, hc]
      exact h
    | some cs =>
      obtain ⟨hnd, hall⟩ := (uniqueNames_iff node).1 h cs hc
      cases hf : findChild part cs with
      | some child =>
        simp only [walkLoop, hc, hf]
        rw [uniqueNames_setChildren]
        have hname : (walkLoop true (some node) child rest).1.name = part := by
          rw [walkLoop_name]; exact findChild_name hf
        refine ⟨by rw [replaceChild_names _ _ hname]; exact hnd, ?_⟩
        intro x hx
        rcases mem_replaceChild _ _ _ _ hx with rfl | hx
        · exact ih _ _ (hall child (findChild_mem hf))
        · exact hall x hx
      | none =>
        simp only [walkLoop, hc, hf, if_true]
        rw [uniqueNames_setChildren]
        constructor
        · apply nodup_names_append hnd
          rw [walkLoop_name]
          exact not_mem_names_of_findChild_none hf
        · intro x hx
          rcases List.mem_append.1 hx with hx | hx
          · exact hall x hx
          · simp only [List.mem_singleton] at hx
            subst hx
            exact ih _ _ rfl

/-- A write through a reference keeps names unique when it does so at the
node written. -/
theorem uniqueNames_mutateAt (f : Node → Node) (hname : ∀ m, (f m).name = m.name)
    (parts : List String) :
    ∀ node : Node, uniqueNames node = true →
      (∀ m, reach node parts = some m → uniqueNames m = true → uniqueNames (f m) = true) →
      uniqueNames (mutateAt f node parts) = true := by
  induction parts with
  | nil =>
    intro node h hf
    exact hf node rfl h
  | cons part rest ih =>
    intro node h hf
    cases hc : node.children with
    | none =>
      simp only [mutateAt, hc]
      exact h
    | some cs =>
      obtain ⟨hnd, hall⟩ := (uniqueNames_iff node).1 h cs hc
      cases hfc : findChild part cs with
      | none =>
        simp only [mutateAt, hc, hfc]
        exact h
      | some child =>
        simp only [mutateAt, hc, hfc]
        rw [uniqueNames_setChildren]
        have hn : (mutateAt f child rest).name = part := by
          rw [mutateAt_name f hname]; exact findChild_name hfc
        refine ⟨by rw [replaceChild_names _ _ hn]; exact hnd, ?_⟩
        intro x hx
        rcases mem_replaceChild _ _ _ _ hx with rfl | hx
        · refine ih child (hall child (findChild_mem hfc)) ?_
          intro m hm
          exact hf m (by simp only [reach, hc, hfc]; exact hm)
        · exact hall x hx

theorem uniqueNames_removeChildren (name : String) (m : Node) (h : uniqueNames m = true) :
    uniqueNames (removeChildren name m) = true := by
  unfold removeChildren
  cases hc : m.children with
  | none =>
    simp only [Option.map_none']
    rw [Node.setChildren_self _ _ hc]
    exact h
  | some cs =>
    obtain ⟨hnd, hall⟩ := (uniqueNames_iff m).1 h cs hc
    simp only [Option.map_some']
    rw [uniqueNames_setChildren]
    refine ⟨((List.filter_sublist cs).map Node.name).nodup hnd, ?_⟩
    intro x hx
    exact hall x (List.mem_of_mem_filter hx)

theorem uniqueNames_pushChild (child m : Node) (h : uniqueNames m = true)
    (hchild : uniqueNames child = true)
    (hfree : ∀ cs, m.children = some cs → child.name ∉ cs.map Node.name) :
    uniqueNames (pushChild child m) = true := by
  unfold pushChild
  cases hc : m.children with
  | none =>
    simp only [Option.map_none']
    rw [Node.setChildren_self _ _ hc]
    exact h
  | some cs =>
    obtain ⟨hnd, hall⟩ := (uniqueNames_iff m).1 h cs hc
    simp only [Option.map_some']
    rw [uniqueNames_setChildren]
    refine ⟨nodup_names_append hnd (hfree cs hc), ?_⟩
    intro x hx
    rcases List.mem_append.1 hx with hx | hx
    · exact hall x hx
    · simp only [List.mem_singleton] at hx
      subst hx
      exact hchild

theorem mapGet_mem {κ υ : Type} [DecidableEq κ] (m : List (κ × υ)) (k : κ) (x : υ)
    (h : mapGet m k = some x) : (k, x) ∈ m := by
  induction m with
  | nil => simp [mapGet] at h
  | cons e m ih =>
    obtain ⟨k', x'⟩ := e
    by_cases hk : k' = k
    · simp only [mapGet, hk, if_true, Option.some.injEq] at h
      subst hk h
      exact List.mem_cons_self _ _
    · simp only [mapGet, hk, if_false] at h
      exact List.mem_cons_of_mem _ (ih h)

theorem storesUnique_mapSet (v : State) (k : String) (T : Node) (h : StoresUnique v)
    (hT : uniqueNames T = true) :
    StoresUnique (State.mk v.mounts (mapSet v.physicalStores k T)) := by
  intro e he
  rcases mem_mapSet _ _ _ _ he with he | he
  · exact h e he
  · subst he
    exact hT

/-- The creating `_walk` keeps names unique among siblings. -/
theorem storesUnique_walk (v : State) (physicalName relative : String) (h : StoresUnique v) :
    StoresUnique (_walk v physicalName relative true).1 := by
  rcases walk_state v physicalName relative true with hs | ⟨root, hg, hs, _⟩
  · rw [hs]
    exact h
  · rw [hs]
    exact storesUnique_mapSet v _ _ h
      (uniqueNames_walkLoop _ _ _ (h _ (mapGet_mem _ _ _ hg)))

theorem storesUnique_mutateNode (v : State) (physicalName relative : String) (f : Node → Node)
    (hname : ∀ m, (f m).name = m.name) (h : StoresUnique v)
    (hf : ∀ R m, mapGet v.physicalStores physicalName = some R →
      reach R (walkParts relative) = some m → uniqueNames m = true → uniqueNames (f m) = true) :
    StoresUnique (mutateNode v physicalName relative f) := by
  unfold mutateNode
  cases hg : mapGet v.physicalStores physicalName with
  | none => exact h
  | some root =>
    exact storesUnique_mapSet v _ _ h
      (uniqueNames_mutateAt f hname _ root (h _ (mapGet_mem _ _ _ hg)) (fun m hm => hf root m hg hm))

/-- `delete` keeps names unique among siblings, whatever its outcome. -/
theorem storesUnique_delete (v : State) (T : String) (h : StoresUnique v) :
    StoresUnique (delete v T).1 := by
  unfold delete
  cases resolve v T with
  | error e => exact h
  | ok r =>
    simp only
    cases (segments r.relative).getLast? with
    | none => exact h
    | some name =>
      simp only
      have hst := walk_false_state v r.physicalName (joinSlash (segments r.relative).dropLast)
      rcases hwalk : _walk v r.physicalName (joinSlash (segments r.relative).dropLast) false
        with ⟨v1, _ | ⟨wp, _ | node⟩⟩
      · rw [hwalk] at hst; simp only at hst; subst hst; exact h
      · rw [hwalk] at hst; simp only at hst; subst hst; exact h
      · rw [hwalk] at hst
        simp only at hst
        subst hst
        simp only
        cases node.children with
        | none => exact h
        | some cs =>
          exact storesUnique_mutateNode v1 _ _ _ (removeChildren_name name) h
            (fun _ m _ _ hm => uniqueNames_removeChildren name m hm)

/-- Along segments that all exist the creating loop changes nothing and
returns the node they reach. -/
theorem walkLoop_true_of_reach (parts : List String) :
    ∀ (parent : Option Node) (node n : Node), reach node parts = some n →
      (walkLoop true parent node parts).1 = node ∧
      ∃ w, (walkLoop true parent node parts).2 = .ok w ∧ w.node = some n := by
  induction parts with
  | nil =>
    intro parent node n h
    simp only [reach, Option.some.injEq] at h
    subst h
    exact ⟨rfl, _, rfl, rfl⟩
  | cons part rest ih =>
    intro parent node n h
    simp only [reach] at h
    cases hc : node.children with
    | none => rw [hc] at h; cases h
    | some cs =>
      rw [hc] at h
      simp only at h
      cases hf : findChild part cs with
      | none => rw [hf] at h; cases h
      | some child =>
        rw [hf] at h
        simp only at h
        obtain ⟨h1, w, h2, h3⟩ := ih (some node) child n h
        simp only [walkLoop, hc, hf]
        refine ⟨?_, w, h2, h3⟩
        rw [h1, replaceChild_self hf]
        exact Node.setChildren_self _ _ hc

/-- Along segments that do not all exist the creating loop, when it returns,
returns a node it has synthesized, with an empty `children` array. -/
theorem walkLoop_true_of_reach_none (parts : List String) :
    ∀ (parent : Option Node) (node : Node) (w : WalkResult), reach node parts = none →
      (walkLoop true parent node parts).2 = .ok w →
      ∃ n, w.node = some n ∧ n.children = some [] := by
  induction parts with
  | nil =>
    intro parent node w h
    simp [reach] at h
  | cons part rest ih =>
    intro parent node w h hw
    simp only [reach] at h
    cases hc : node.children with
    | none =>
      simp only [walkLoop, hc] at hw
      cases hw
    | some cs =>
      rw [hc] at h
      simp only at h
      cases hf : findChild part cs with
      | some child =>
        rw [hf] at h
        simp only [walkLoop, hc, hf] at hw
        exact ih (some node) child w h hw
      | none =>
        simp only [walkLoop, hc, hf, if_true] at hw
        rw [walkLoop_synthesized rest part node cs hc] at hw
        simp only [Except.ok.injEq] at hw
        subst hw
        exact ⟨_, rfl, by rw [chainLeaf_eq]; rfl⟩

/-- The node a creating `_walk` returns: the one its segments reached before
the call, or else a synthesized node with an empty `children` array. -/
theorem walk_create_detail {v v1 : State} {physicalName relative : String} {p : WalkResult}
    (hwalk : _walk v physicalName relative true = (v1, .ok p)) :
    ∃ R, mapGet v.physicalStores physicalName = some R ∧
      (∀ n0, reach R (walkParts relative) = some n0 → p.node = some n0) ∧
      (reach R (walkParts relative) = none → ∃ n, p.node = some n ∧ n.children = some []) := by
  cases hR : mapGet v.physicalStores physicalName with
  | none =>
    unfold _walk at hwalk
    rw [hR] at hwalk
    simp at hwalk
  | some R =>
    have hsnd := walk_snd v physicalName relative true R hR
    rw [hwalk] at hsnd
    simp only at hsnd
    refine ⟨R, rfl, ?_, ?_⟩
    · intro n0 hn0
      obtain ⟨_, w, h2, h3⟩ := walkLoop_true_of_reach _ none R n0 hn0
      rw [← hsnd] at h2
      cases h2
      exact h3
    · intro hnone
      exact walkLoop_true_of_reach_none _ none R p hnone hsnd.symm

/-- `createFile` and `createFolder` keep names unique among siblings when the
parent has no child of the new name. -/
theorem storesUnique_createNode (v : State) (P : String) (child : Node) (h : StoresUnique v)
    (hchild : uniqueNames child = true)
    (hfree : ∀ es, list v P = .ok es → ∀ e ∈ es, e.name ≠ child.name) :
    StoresUnique (createNode v P child).1 := by
  unfold createNode
  cases hr : resolve v P with
  | error e => exact h
  | ok r =>
    simp only
    have hw := storesUnique_walk v r.physicalName r.relative h
    rcases hwalk : _walk v r.physicalName r.relative true with ⟨v1, _ | ⟨wp, _ | node⟩⟩
    · rw [hwalk] at hw; exact hw
    · rw [hwalk] at hw; exact hw
    · rw [hwalk] at hw
      simp only at hw ⊢
      cases hc : node.children with
      | none => exact hw
      | some cs0 =>
        simp only
        obtain ⟨_, _, n, T, hn, hget, hreach⟩ := walk_create_ok hwalk
        simp only [Option.some.injEq] at hn
        subst hn
        obtain ⟨R, hR, hsome, hnone⟩ := walk_create_detail hwalk
        have hfree' : child.name ∉ cs0.map Node.name := by
          cases hreachR : reach R (walkParts r.relative) with
          | none =>
            obtain ⟨n, hn, hnc⟩ := hnone hreachR
            simp only [Option.some.injEq] at hn
            subst hn
            rw [hc] at hnc
            cases hnc
            simp
          | some n0 =>
            have := hsome n0 hreachR
            simp only [Option.some.injEq] at this
            subst this
            rw [walkParts_eq] at hreachR
            obtain ⟨w, hw1, hw2⟩ := walk_false_result hR hreachR
            have hl : list v P = .ok
                ((node.children.getD []).map (fun c =>
                  ({ name := c.name
                     isDirectory := c.children.isSome
                     path := _joinVirtual v r.physicalName r.relative c.name } : Entry))) := by
              unfold list
              rw [hr]
              simp only [hw1, hw2]
            intro hin
            obtain ⟨c, hcin, hcname⟩ := List.mem_map.1 hin
            refine hfree _ hl ⟨c.name, c.children.isSome,
              _joinVirtual v r.physicalName r.relative c.name⟩ ?_ hcname
            rw [hc]
            simp only [Option.getD_some, List.mem_map]
            exact ⟨c, hcin, rfl⟩
        refine storesUnique_mutateNode v1 _ _ _ (pushChild_name child) hw ?_
        intro T' m hT' hm hmu
        rw [hget] at hT'
        cases hT'
        rw [hreach] at hm
        cases hm
        exact uniqueNames_pushChild child _ hmu hchild
          (fun cs hcs => by rw [hc] at hcs; cases hcs; exact hfree')

/-- C14 (as stated, refuted): names are unique among siblings in the demo
instance, `createFile("res://", "assets")` completes, and the root then has
two children called `assets`. -/
theorem unique_names_counterexample :
    StoresUnique DemoVFS ∧
    (createFile DemoVFS "res://" "assets" "u").2 = .ok () ∧
    (list (createFile DemoVFS "res://" "assets" "u").1 "res://").map
        (fun es => es.map (fun e => e.name)) = .ok ["assets", "scenes", "assets"] ∧
    ¬ StoresUnique (createFile DemoVFS "res://" "assets" "u").1 := by
  decide

/-- C14 (amended): starting from a state in which names are unique among the
children of every node, the create-if-missing walk and `delete` always yield
such a state, whatever their outcome, and `createFile(P, x)` and
`createFolder(P, x)` do when `list(P)`, if it returns, has no entry named `x`
before the call. -/
theorem unique_names_invariant (v : State) (hu : StoresUnique v) :
    (∀ physicalName relative, StoresUnique (_walk v physicalName relative true).1) ∧
    (∀ T, StoresUnique (delete v T).1) ∧
    (∀ P x uid, (∀ es, list v P = .ok es → ∀ e ∈ es, e.name ≠ x) →
      StoresUnique (createFile v P x uid).1) ∧
    (∀ P x, (∀ es, list v P = .ok es → ∀ e ∈ es, e.name ≠ x) →
      StoresUnique (createFolder v P x).1) :=
  ⟨fun physicalName relative => storesUnique_walk v physicalName relative hu,
   fun T => storesUnique_delete v T hu,
   fun P x uid hfree => storesUnique_createNode v P (newFile x uid) hu rfl hfree,
   fun P x hfree => storesUnique_createNode v P (newFolder x) hu rfl hfree⟩

/-- C14 (amended) at the demo instance: a new file `oak.fbx` next to
`tree.fbx`, a folder below a path that does not exist yet, and the delete of
`assets`. -/
theorem unique_names_invariant_witness :
    StoresUnique (createFile DemoVFS "res://assets/models" "oak.fbx" "u2").1 ∧
    StoresUnique (createFolder DemoVFS "res://a/b" "c").1 ∧
    StoresUnique (delete DemoVFS "res://assets").1 :=
  ⟨(unique_names_invariant DemoVFS (by decide)).2.2.1 "res://assets/models" "oak.fbx" "u2"
      (by
        intro es hes
        have e : list DemoVFS "res://assets/models"
            = .ok [⟨"tree.fbx", false, "res://assets/models/tree.fbx"⟩] := by decide
        rw [e] at hes
        cases hes
        decide),
   (unique_names_invariant DemoVFS (by decide)).2.2.2 "res://a/b" "c"
      (by
        intro es hes
        have e : list DemoVFS "res://a/b" = .ok [] := by decide
        rw [e] at hes
        cases hes
        decide),
   (unique_names_invariant DemoVFS (by decide)).2.1 "res://assets"⟩

/-! ## C19: the paths list returns -/

theorem goodNamesAll_iff (cs : List Node) :
    goodNamesAll cs = true ↔ ∀ c ∈ cs, goodName c.name = true ∧ goodNames c = true := by
  induction cs with
  | nil => simp [goodNamesAll]
  | cons c cs ih => simp [goodNamesAll, ih, and_assoc]

theorem goodNames_iff (n : Node) :
    goodNames n = true ↔
      ∀ cs, n.children = some cs → ∀ c ∈ cs, goodName c.name = true ∧ goodNames c = true := by
  obtain ⟨nm, cs, d, m⟩ := n
  cases cs with
  | none => simp [goodNames, Node.children]
  | some cs => simp [goodNames, Node.children, goodNamesAll_iff]

theorem goodName_iff (name : String) :
    goodName name = true ↔ name ≠ "" ∧ ∀ c ∈ name.data, c ≠ '/' := by
  simp [goodName, List.all_eq_true]

/-- Every node reached in a tree with good and unique names has children with
good and unique names. -/
theorem good_unique_reach (parts : List String) :
    ∀ (node n : Node), reach node parts = some n →
      goodNames node = true → uniqueNames node = true →
      goodNames n = true ∧ uniqueNames n = true := by
  induction parts with
  | nil =>
    intro node n h hg hu
    simp only [reach, Option.some.injEq] at h
    subst h
    exact ⟨hg, hu⟩
  | cons part rest ih =>
    intro node n h hg hu
    simp only [reach] at h
    cases hc : node.children with
    | none => rw [hc] at h; cases h
    | some cs =>
      rw [hc] at h
      simp only at h
      cases hf : findChild part cs with
      | none => rw [hf] at h; cases h
      | some child =>
        rw [hf] at h
        have hmem := findChild_mem hf
        exact ih child n h (((goodNames_iff node).1 hg cs hc) child hmem).2
          (((uniqueNames_iff node).1 hu cs hc).2 child hmem)

theorem findChild_of_mem_nodup {cs : List Node} {c : Node} (hc : c ∈ cs)
    (hnd : (cs.map Node.name).Nodup) : findChild c.name cs = some c := by
  induction cs with
  | nil => cases hc
  | cons d cs ih =>
    rw [findChild_cons]
    rw [List.map_cons, List.nodup_cons] at hnd
    rcases List.mem_cons.1 hc with rfl | hc'
    · rw [if_pos rfl]
    · have hne : ¬ d.name = c.name := by
        intro e
        exact hnd.1 (e ▸ List.mem_map_of_mem Node.name hc')
      rw [if_neg hne]
      exact ih hc' hnd.2

/-- The text `_joinVirtual` puts between the mount point and the name, and
the name after it: not empty, with the segments of the relative path and then
the name. -/
theorem segments_join (relative name : String) (hname : goodName name = true) :
    (if relative = "/" then "" else relative ++ (if endsWithSlash relative then "" else "/"))
        ++ name ≠ "" ∧
    segments ((if relative = "/" then "" else
        relative ++ (if endsWithSlash relative then "" else "/")) ++ name)
      = segments relative ++ [name] := by
  obtain ⟨hne, hns⟩ := (goodName_iff name).1 hname
  have hsn : segments name = [name] := by
    rw [segments_of_no_slash name hns, if_neg hne]
  have hdata : name.data ≠ [] := fun h => hne (String.ext h)
  have hnonempty : ∀ t : String, t ++ name ≠ "" := by
    intro t h
    have := congrArg String.data h
    simp [String.data_append, hdata] at this
  refine ⟨hnonempty _, ?_⟩
  by_cases h1 : relative = "/"
  · rw [if_pos h1, h1, segments_slash]
    simp only [String.empty_append, List.nil_append]
    exact hsn
  · rw [if_neg h1]
    by_cases h2 : endsWithSlash relative = true
    · rw [if_pos h2]
      obtain ⟨l, hl⟩ := (endsWithSlash_iff relative).1 h2
      have hrel : relative = String.mk l ++ "/" ++ "" := by
        apply String.ext
        simp [String.data_append, hl]
      have hpath : relative ++ "" ++ name = String.mk l ++ "/" ++ name := by
        apply String.ext
        simp [String.data_append, hl]
      rw [hpath, segments_append_slash, hsn]
      conv_rhs => rw [hrel, segments_append_slash, segments_empty]
      simp
    · rw [if_neg h2, segments_append_slash, hsn]

/-- C19: for every state with exactly one mount-table entry, in which every
node below the roots has a name that is not empty and has no slash, and names
are unique among siblings, and for every path `P` for which
`list(P)` returns: for each entry `e` returned `exists(e.path)` is true, and
`e.path` denotes the one child of the node of `P` that is called `e.name`,
whose `children` slot is present exactly when `e.isDirectory` is true. -/
theorem list_paths_roundtrip (v : State) (mp S : String) (hm : v.mounts = [(mp, S)])
    (hnames : ∀ e ∈ v.physicalStores, goodNames e.2 = true ∧ uniqueNames e.2 = true)
    (P : String) (es : List Entry) (hl : list v P = .ok es) :
    ∀ e ∈ es, «exists» v e.path = true ∧
      ∃ n cs c, nodeAt v P = some n ∧ n.children = some cs ∧ c ∈ cs ∧ c.name = e.name ∧
        (∀ c2 ∈ cs, c2.name = e.name → c2 = c) ∧
        nodeAt v e.path = some c ∧ c.children.isSome = e.isDirectory := by
  unfold list at hl
  cases hr : resolve v P with
  | error err => rw [hr] at hl; cases hl
  | ok r =>
    rw [hr] at hl
    simp only at hl
    rcases hwalk : _walk v r.physicalName r.relative false with ⟨v1, _ | ⟨wp, _ | n⟩⟩
    · rw [hwalk] at hl; cases hl
    · rw [hwalk] at hl
      simp only [Except.ok.injEq] at hl
      subst hl
      intro e he
      cases he
    · rw [hwalk] at hl
      simp only [Except.ok.injEq] at hl
      obtain ⟨R, hR, hreach⟩ := walk_false_node hwalk
      rw [walkParts_eq] at hreach
      have hrS : r.physicalName = S := by
        unfold resolve at hr
        rw [hm] at hr
        simp only [resolveIn] at hr
        split at hr
        · simp only [Except.ok.injEq] at hr
          rw [← hr]
          rfl
        · cases hr
      have hP : nodeAt v P = some n := by
        rw [nodeAt_eq, hr]
        simp only [hR]
        exact hreach
      obtain ⟨hgR, huR⟩ := hnames _ (mapGet_mem _ _ _ hR)
      obtain ⟨hgn, hun⟩ := good_unique_reach _ R n hreach hgR huR
      intro e he
      rw [← hl] at he
      cases hc : n.children with
      | none =>
        rw [hc] at he
        simp at he
      | some cs =>
        rw [hc] at he
        simp only [Option.getD_some, List.mem_map] at he
        obtain ⟨c, hcin, hce⟩ := he
        obtain ⟨hnd, _⟩ := (uniqueNames_iff n).1 hun cs hc
        have hcgood : goodName c.name = true := ((goodNames_iff n).1 hgn cs hc c hcin).1
        obtain ⟨hne, hseg⟩ := segments_join r.relative c.name hcgood
        have hpath : e.path = mp ++
            ((if r.relative = "/" then "" else
              r.relative ++ (if endsWithSlash r.relative then "" else "/")) ++ c.name) := by
          rw [← hce]
          simp only [_joinVirtual, hm, joinVirtualIn, hrS, if_true]
          rw [String.append_assoc]
        have hres : resolve v e.path = .ok
            { physicalName := S
              relative := (if r.relative = "/" then "" else
                r.relative ++ (if endsWithSlash r.relative then "" else "/")) ++ c.name } := by
          unfold resolve
          rw [hm, hpath]
          simp only [resolveIn, mountMatches_append, if_true]
          rw [resolved_append, if_neg hne]
        have hfind : findChild c.name cs = some c := findChild_of_mem_nodup hcin hnd
        have hnode : nodeAt v e.path = some c := by
          rw [nodeAt_eq, hres]
          simp only
          rw [← hrS, hR]
          simp only [hseg, reach_append, hreach, Option.some_bind, reach, hc, hfind]
        refine ⟨by rw [exists_eq, hnode]; rfl, n, cs, c, hP, hc, hcin, by rw [← hce], ?_, hnode,
          by rw [← hce]⟩
        intro c2 hc2 hname2
        have h2 : findChild c2.name cs = some c2 := findChild_of_mem_nodup hc2 hnd
        rw [← hce] at hname2
        simp only at hname2
        rw [hname2, hfind] at h2
        cases h2
        rfl

/-- C19 at the demo instance: the paths of the two entries that
`list("res://assets")` returns exist. -/
theorem list_paths_roundtrip_witness :
    «exists» DemoVFS "res://assets/models" = true ∧
    «exists» DemoVFS "res://assets/textures" = true :=
  ⟨(list_paths_roundtrip DemoVFS "res://" "proj1" rfl (by decide) "res://assets"
      [⟨"models", true, "res://assets/models"⟩, ⟨"textures", true, "res://assets/textures"⟩]
      (by decide) ⟨"models", true, "res://assets/models"⟩ (by decide)).1,
   (list_paths_roundtrip DemoVFS "res://" "proj1" rfl (by decide) "res://assets"
      [⟨"models", true, "res://assets/models"⟩, ⟨"textures", true, "res://assets/textures"⟩]
      (by decide) ⟨"textures", true, "res://assets/textures"⟩ (by decide)).1⟩

end VFS
